import Mathlib

/-!
Verification of the `bring` growable ring buffer (final revision of
`buffer.go`).

The Go structure `Buffer` keeps a circular list of fixed-size byte blocks
(`container/ring`), a read cursor `pr = (r, i)`, a write cursor `pw = (r, i)`,
and three `int` counters: `left` (readable bytes), `cap` (free bytes) and
`maxCap` (total allocated bytes).

Shallow embedding conventions:
* the circular block list is a `List Block` with index-based ring arithmetic
  (`next r = (r+1) % blocks.length`); `ring.Link` (block insertion after the
  write block) becomes list splicing, with the read-block index shifted when
  it lies after the insertion point, so that indices keep following the same
  ring nodes;
* bytes are `Nat` values, Go `int` counters that can be observed negative in
  corrupted executions (`left`, `cap`, `maxCap`, totals) are `Int`; cursor
  offsets and block indices, which the code only ever assigns non-negative
  values, are `Nat`;
* a Go `panic` (failed `assert.True`, out-of-range slice index, negative
  reader count) and a non-terminating loop are modelled by `Option`/fuel:
  `none` means the call does not return normally;
* the external sink of `WriteTo` is abstracted by the count it accepts and
  the error it returns; the external source of `readFrom` by a script of
  responses, one per `Read` call on it.
-/

namespace Bring

/-- Errors visible through the buffer API: `io.EOF` plus opaque collaborator
errors (indexed by a code). -/
inductive GErr where
  | eof
  | opaque_ (k : Nat)
  deriving DecidableEq, Repr

/-- One response of an external byte source: either `Read` filled `data` and
returned error `e`, or it returned a negative count (contract violation). -/
inductive SrcResp where
  | ok (data : List Nat) (e : Option GErr)
  | neg
  deriving DecidableEq, Repr

/-- The Go `Buffer` (final revision): block ring, read/write cursors,
`blockSize`, and the `left`/`cap`/`maxCap` counters. -/
structure Buffer where
  blocks : List (List Nat)
  prR : Nat
  prI : Nat
  pwR : Nat
  pwI : Nat
  blockSize : Nat
  left : Int
  cap : Int
  maxCap : Int
  deriving DecidableEq, Repr

/-- `r.Next()` in index form. -/
def ringNext (s : Buffer) (r : Nat) : Nat := (r + 1) % s.blocks.length

/-- `ringBytes(r)`: the byte block at ring index `r`. -/
def ringBytes (s : Buffer) (r : Nat) : List Nat := s.blocks.getD r []

/-- `copy(b[i:], c)` for `c` of length at most `len(b) - i`: overwrite the
range `[i, i + len c)` of `b` with `c`. -/
def spliceAt (b : List Nat) (i : Nat) (c : List Nat) : List Nat :=
  b.take i ++ c ++ b.drop (i + c.length)

/-- `Reset`: collapse both cursors onto the current write block and restore
all capacity. -/
def Reset (s : Buffer) : Buffer :=
  { s with pwI := 0, prR := s.pwR, prI := 0, left := 0, cap := s.maxCap }

/-- `New(size, n)` with both arguments floored to their minimums
(`MinBlockSize = 512`, `MinBlockCount = 1`). -/
def New (size₀ n₀ : Nat) : Buffer :=
  let size := if size₀ < 512 then 512 else size₀
  let n := if n₀ < 1 then 1 else n₀
  Reset { blocks := List.replicate n (List.replicate size 0), prR := 0, prI := 0
          pwR := 0, pwI := 0, blockSize := size, left := 0, cap := 0
          maxCap := (size * n : Nat) }

/-- `Len()`. -/
def Len (s : Buffer) : Int := s.left

/-- `Cap()`. -/
def Cap (s : Buffer) : Int := s.cap

/-- `MaxCap()`. -/
def MaxCap (s : Buffer) : Int := s.maxCap

/-- `grow(n)`: allocate `m = n/blockSize + 1` fresh zero blocks and splice
them in right after the write block (`rb.pw.r.Link(newR)`); both `cap` and
`maxCap` grow by `m * blockSize`.  Every call site passes `n ≥ 1`, where Go's
truncated `int` division agrees with `Nat` division.  Splicing after `pwR`
shifts the index of every block that lies beyond it, hence the `prR`
adjustment keeping the read index on the same block. -/
def grow (s : Buffer) (n : Int) : Buffer :=
  let m : Nat := n.toNat / s.blockSize + 1
  let fresh := List.replicate m (List.replicate s.blockSize 0)
  { s with blocks := s.blocks.take (s.pwR + 1) ++ fresh ++ s.blocks.drop (s.pwR + 1)
           prR := if s.pwR < s.prR then s.prR + m else s.prR
           cap := s.cap + (m * s.blockSize : Nat)
           maxCap := s.maxCap + (m * s.blockSize : Nat) }

/-- `stepNext(false)`: advance the read cursor to the next block, reclaiming
the crossed block, if it sits exactly at a block boundary and is not on the
write block; otherwise do nothing. -/
def stepNext (s : Buffer) : Buffer :=
  if s.prI ≠ s.blockSize ∨ s.prR = s.pwR then s
  else { s with prI := 0, prR := ringNext s s.prR, cap := s.cap + (s.blockSize : Int) }

/-- `stepNext(true)`: as `stepNext`, but `assert.True(false)` (a panic,
modelled as `none`) if the forced crossing is not possible. -/
def stepNextChecked (s : Buffer) : Option Buffer :=
  if s.prI ≠ s.blockSize ∨ s.prR = s.pwR then none
  else some { s with prI := 0, prR := ringNext s s.prR, cap := s.cap + (s.blockSize : Int) }

/-- The copy loop of `Write`/`WriteString`: copy `p[offset:]` into the ring
starting at the write cursor, block by block.  `none` models the failed
`assert.True(rb.pw.i == rb.blockSize)` or fuel exhaustion. -/
def writeLoop (p : List Nat) : Nat → Buffer → Nat → Option Buffer
  | 0, _, _ => none
  | fuel + 1, s, offset =>
    let buf := ringBytes s s.pwR
    let cnt := min (buf.length - s.pwI) (p.length - offset)
    let s' : Buffer :=
      { s with blocks := s.blocks.set s.pwR (spliceAt buf s.pwI ((p.drop offset).take cnt))
               pwI := s.pwI + cnt, cap := s.cap - (cnt : Int), left := s.left + (cnt : Int) }
    let offset' := offset + cnt
    if p.length = offset' then some s'
    else if s'.pwI = s'.blockSize then
      writeLoop p fuel { s' with pwI := 0, pwR := ringNext s' s'.pwR } offset'
    else none

/-- `Write(p)`: grow when `cap < len(p)`, assert the grown capacity suffices,
then copy the whole payload; always returns `(len p, nil)` on normal return. -/
def Write (s₀ : Buffer) (p : List Nat) : Option (Nat × Buffer) :=
  let s := if s₀.cap < (p.length : Int) then grow s₀ ((p.length : Int) - s₀.cap) else s₀
  if s.cap < (p.length : Int) then none
  else (writeLoop p (p.length + 2) s 0).map (fun s' => (p.length, s'))

/-- `WriteString(s)`: same loop as `Write` on the bytes of the string. -/
def WriteString (s₀ : Buffer) (p : List Nat) : Option (Nat × Buffer) :=
  let s := if s₀.cap < (p.length : Int) then grow s₀ ((p.length : Int) - s₀.cap) else s₀
  if s.cap < (p.length : Int) then none
  else (writeLoop p (p.length + 2) s 0).map (fun s' => (p.length, s'))

/-- The copy loop of `Read`: copy from the read cursor into a destination of
capacity `plen`, returning the updated buffer and the bytes copied out.
`none` models a slice-bounds panic, the `stepNext(true)` assertion, or fuel
exhaustion. -/
def readLoop (plen : Nat) : Nat → Buffer → List Nat → Nat → Option (Buffer × List Nat)
  | 0, _, _, _ => none
  | fuel + 1, s, acc, offset =>
    let e := if s.prR = s.pwR then s.pwI else s.blockSize
    let buf := ringBytes s s.prR
    if e < s.prI ∨ buf.length < e then none
    else
      let cnt := min (plen - offset) (e - s.prI)
      let s' : Buffer := { s with prI := s.prI + cnt, left := s.left - (cnt : Int) }
      let acc' := acc ++ (buf.drop s.prI).take cnt
      let offset' := offset + cnt
      if s'.left = 0 ∨ offset' = plen then some (stepNext s', acc')
      else
        match stepNextChecked s' with
        | some s'' => readLoop plen fuel s'' acc' offset'
        | none => none

/-- `Read(p)` for a destination of capacity `plen`: returns the reported
count, the error (`io.EOF` on an empty buffer), the new state, and the bytes
written into the destination. -/
def Read (s : Buffer) (plen : Nat) : Option (Int × Option GErr × Buffer × List Nat) :=
  if plen = 0 then some (0, none, s, [])
  else if s.left = 0 then some (0, some .eof, s, [])
  else
    let n : Int := if s.left > (plen : Int) then (plen : Int) else s.left
    (readLoop plen (2 * plen + 4) s [] 0).map fun (s', acc) =>
      if s'.left = 0 then (n, none, Reset s', acc) else (n, none, s', acc)

/-- `ReadByte()`: the byte read (0 together with `io.EOF` on an empty
buffer), the error, and the new state. -/
def ReadByte (s : Buffer) : Option (Nat × Option GErr × Buffer) :=
  if s.left = 0 then some (0, some .eof, s)
  else
    let buf := ringBytes s s.prR
    if buf.length ≤ s.prI then none
    else
      let c := buf.getD s.prI 0
      let s' : Buffer := { s with prI := s.prI + 1, left := s.left - 1 }
      if s'.left = 0 then some (c, none, Reset s')
      else if s'.prI = s'.blockSize then
        (stepNextChecked s').map fun s'' => (c, none, s'')
      else some (c, none, s')

/-- The `for cnt > 0 { pr.r = pr.r.Next(); cap += blockSize; cnt-- }` loop of
`Skip` (and of the slow path of the first revision's `WriteTo`). -/
def skipHops : Nat → Buffer → Buffer
  | 0, s => s
  | k + 1, s =>
    skipHops k { s with prR := ringNext s s.prR, cap := s.cap + (s.blockSize : Int) }

/-- `Skip(n)`: discard the first `n` readable bytes (clamped to `[0, left]`),
advancing the read cursor and reclaiming every fully crossed block; a full
drain resets the buffer. -/
def Skip (s₀ : Buffer) (n₀ : Int) : Buffer :=
  let n := if n₀ > s₀.left then s₀.left else n₀
  if n ≤ 0 then s₀
  else
    let s : Buffer := { s₀ with left := s₀.left - n }
    if s.left = 0 then Reset s
    else if (s.prI : Int) + n ≤ (s.blockSize : Int) then
      stepNext { s with prI := s.prI + n.toNat }
    else
      let n' := n - ((s.blockSize : Int) - (s.prI : Int))
      let tail := n' % (s.blockSize : Int)
      let cnt := n' / (s.blockSize : Int)
      if tail > 0 then { skipHops (cnt.toNat + 1) s with prI := tail.toNat }
      else stepNext { skipHops cnt.toNat s with prI := s.blockSize }

/-- The write-cursor relocation loop of `Truncate`.  Faithfully reproduces
the source, which zeroes `pw.i` *before* the `m -= blockSize - pw.i`
update, so every boundary crossing subtracts a full `blockSize` from `m`.
The fuel only guards against `blockSize = 0` (unreachable: `New` enforces
`blockSize ≥ 512` and it is never modified). -/
def truncLoop : Nat → Buffer → Int → Buffer
  | 0, s, _ => s
  | fuel + 1, s, m =>
    if m > 0 then
      if (s.blockSize : Int) - (s.pwI : Int) < m then
        truncLoop fuel { s with pwI := 0, pwR := ringNext s s.pwR }
          (m - ((s.blockSize : Int) - (0 : Int)))
      else { s with pwI := s.pwI + m.toNat }
    else s

/-- `Truncate(n)`: full reset for `n ≤ 0`, no-op for `n ≥ left`, otherwise
reclaim `left - n` bytes and relocate the write cursor from the read cursor
via `truncLoop`. -/
def Truncate (s₀ : Buffer) (n : Int) : Buffer :=
  if n ≤ 0 then Reset s₀
  else if n ≥ s₀.left then s₀
  else
    let s : Buffer := { s₀ with cap := s₀.cap + (s₀.left - n), left := n
                                pwI := s₀.prI, pwR := s₀.prR }
    truncLoop (n.toNat + 1) s n

/-- `Close()`: reset and report no error. -/
def Close (s : Buffer) : Option GErr × Buffer := (none, Reset s)

/-- The span-collecting loop of `Peek`: walk the ring from the read block
while `total > 0`, collecting one contiguous span per block.  `none` models
a slice-bounds panic or a non-terminating walk. -/
def peekLoop (s : Buffer) : Nat → Nat → Int → List (List Nat) → Option (List (List Nat))
  | 0, _, _, _ => none
  | fuel + 1, prg, total, list =>
    if total > 0 then
      let e := if prg = s.pwR then s.pwI else s.blockSize
      let st := if prg = s.prR then s.prI else 0
      let blk := ringBytes s prg
      if e < st ∨ blk.length < e then none
      else
        let buf := (blk.drop st).take (e - st)
        peekLoop s fuel (ringNext s prg) (total - (buf.length : Int)) (list ++ [buf])
    else some list

/-- `Peek()`: the ordered list of contiguous spans covering the unread
content; empty list when `left == 0`. -/
def Peek (s : Buffer) : Option (List (List Nat)) :=
  if s.left = 0 then some []
  else peekLoop s (s.blocks.length * (s.left.toNat + 1) + 2) s.prR s.left []

/-- `WriteTo(w)` with the sink abstracted by the count `acc` it accepts and
the error `werr` it returns.  Result: `(reported count, reported error, new
state, bytes offered to the sink)`.  Fast path when all unread bytes sit in
the read block; general path hands the `Peek` spans to one vectorized write
and retires via `Skip`. -/
def WriteTo (s : Buffer) (acc : Int) (werr : Option GErr) :
    Option (Int × Option GErr × Buffer × List Nat) :=
  if s.left = 0 then some (0, none, s, [])
  else if (s.prI : Int) + s.left ≤ (s.blockSize : Int) then
    let buf := ringBytes s s.prR
    if s.left < 0 ∨ (buf.length : Int) < (s.prI : Int) + s.left then none
    else
      let offered := (buf.drop s.prI).take s.left.toNat
      let cnt := if acc < 0 then 0 else acc
      let s' : Buffer := { s with prI := s.prI + cnt.toNat, left := s.left - cnt }
      some (cnt, werr, if s'.left = 0 then Reset s' else s', offered)
  else
    (Peek s).map fun spans => (acc, werr, Skip s acc, spans.flatten)

/-- `WriteTo(w)` against a sink that accepts everything without error
(`bytes.Buffer`), as used by `Bytes` through the state-restoring `writeTo`
wrapper. -/
def WriteToFull (s : Buffer) : Option (Int × Buffer × List Nat) :=
  if s.left = 0 then some (0, s, [])
  else if (s.prI : Int) + s.left ≤ (s.blockSize : Int) then
    let buf := ringBytes s s.prR
    if s.left < 0 ∨ (buf.length : Int) < (s.prI : Int) + s.left then none
    else
      let offered := (buf.drop s.prI).take s.left.toNat
      let cnt : Int := offered.length
      let s' : Buffer := { s with prI := s.prI + cnt.toNat, left := s.left - cnt }
      some (cnt, if s'.left = 0 then Reset s' else s', offered)
  else
    (Peek s).map fun spans =>
      ((spans.flatten.length : Int), Skip s spans.flatten.length, spans.flatten)

/-- `Bytes()`: materialize the unread content through `writeTo`, which saves
`pr`, `pw`, `cap`, `left` around a `WriteTo` into a fresh `bytes.Buffer` and
restores them afterwards. -/
def Bytes (s : Buffer) : Option (List Nat × Buffer) :=
  if s.left = 0 then some ([], s)
  else (WriteToFull s).map fun (_, s', out) =>
    (out, { s' with prR := s.prR, prI := s.prI, pwR := s.pwR, pwI := s.pwI
                    cap := s.cap, left := s.left })

/-- Normal return or panic of `readFrom`. -/
inductive RfOut where
  | normal (total : Int) (e : Option GErr) (s : Buffer)
  | panicked (s : Buffer)
  deriving DecidableEq, Repr

/-- The pull loop of `readFrom(r, pipe)`, driven by the source's scripted
responses (one per `r.Read` call).  A negative count panics with the state
of the moment untouched; a response longer than the offered space violates
the `io.Reader` contract and is not modelled (`none`); an exhausted script
means the loop would keep pulling (`none`). -/
def readFromLoop (pipe : Bool) : Buffer → Int → List SrcResp → Option RfOut
  | _, _, [] => none
  | s, _, .neg :: _ => some (.panicked s)
  | s, total, .ok data e :: rest =>
    let buf := (ringBytes s s.pwR).drop s.pwI
    if buf.length < data.length then none
    else
      let s' : Buffer :=
        { s with blocks := s.blocks.set s.pwR (spliceAt (ringBytes s s.pwR) s.pwI data)
                 cap := s.cap - (data.length : Int), pwI := s.pwI + data.length
                 left := s.left + (data.length : Int) }
      let total' := total + (data.length : Int)
      if e.isSome ∨ (pipe ∧ data.length < buf.length) then
        some (.normal total' (if ¬pipe ∧ e = some .eof then none else e) s')
      else
        let s'' := if s'.cap = 0 then grow s' 1 else s'
        let s''' := if s''.pwI = s''.blockSize then
            { s'' with pwI := 0, pwR := ringNext s'' s''.pwR } else s''
        readFromLoop pipe s''' total' rest

/-- `ReadFrom(r)`. -/
def ReadFrom (s : Buffer) (script : List SrcResp) : Option RfOut :=
  readFromLoop false s 0 script

/-- `ReadFromPipe(r)`. -/
def ReadFromPipe (s : Buffer) (script : List SrcResp) : Option RfOut :=
  readFromLoop true s 0 script

/-- `WriteByte(c)`: grow by one block when no capacity is free, wrap the
write cursor at a block boundary, store the byte. -/
def WriteByte (s₀ : Buffer) (c : Nat) : Option Buffer :=
  let s := if s₀.cap = 0 then grow s₀ 1 else s₀
  let s' := if s.pwI = s.blockSize then { s with pwI := 0, pwR := ringNext s s.pwR } else s
  let buf := ringBytes s' s'.pwR
  if buf.length ≤ s'.pwI then none
  else some { s' with blocks := s'.blocks.set s'.pwR (buf.set s'.pwI c)
                      pwI := s'.pwI + 1, left := s'.left + 1, cap := s'.cap - 1 }


/-! ### List helpers -/

theorem length_spliceAt {b c : List Nat} {i : Nat} (h : c.length ≤ b.length - i) :
    (spliceAt b i c).length = b.length := by
  simp only [spliceAt, List.length_append, List.length_take, List.length_drop]
  omega

theorem spliceAt_nil (b : List Nat) (i : Nat) : spliceAt b i [] = b := by
  simp [spliceAt]

theorem ringBytes_len_le {s : Buffer} (h : ∀ b ∈ s.blocks, b.length = s.blockSize) (r : Nat) :
    (ringBytes s r).length ≤ s.blockSize := by
  unfold ringBytes
  rcases Nat.lt_or_ge r s.blocks.length with hr | hr
  · rw [List.getD_eq_getElem?_getD, List.getElem?_eq_getElem hr]
    exact (h _ (List.getElem_mem hr)).le
  · rw [List.getD_eq_getElem?_getD, List.getElem?_eq_none hr]
    simp

theorem ringBytes_len {s : Buffer} (h : ∀ b ∈ s.blocks, b.length = s.blockSize) {r : Nat}
    (hr : r < s.blocks.length) : (ringBytes s r).length = s.blockSize := by
  unfold ringBytes
  rw [List.getD_eq_getElem?_getD, List.getElem?_eq_getElem hr]
  exact h _ (List.getElem_mem hr)

/-! ### The weak (counter-level) invariant

It constrains only block shapes, cursor offsets and the three counters, and
is maintained by every public operation — even across the state corruption
that `Truncate` can cause (see `c3_truncate_bug` below). -/

structure WInv (s : Buffer) : Prop where
  uniform : ∀ b ∈ s.blocks, b.length = s.blockSize
  bsPos : 0 < s.blockSize
  nbPos : 0 < s.blocks.length
  prI_le : s.prI ≤ s.blockSize
  pwI_le : s.pwI ≤ s.blockSize
  ident : s.cap + s.left + (s.prI : Int) = s.maxCap

theorem winv_reset {s : Buffer} (h : WInv s) : WInv (Reset s) := by
  obtain ⟨hu, hb, hn, _, _, _⟩ := h
  exact ⟨hu, hb, hn, by simp [Reset, hb.le], by simp [Reset], by simp [Reset]⟩

theorem winv_new (a b : Nat) : WInv (New a b) := by
  refine ⟨?_, ?_, ?_, ?_, ?_, ?_⟩
  · intro blk hblk
    simp only [New, Reset] at hblk ⊢
    rcases List.eq_of_mem_replicate hblk with rfl
    simp
  · simp only [New, Reset]
    split <;> omega
  · simp only [New, Reset, List.length_replicate]
    split <;> omega
  · simp [New, Reset]
  · simp [New, Reset]
  · simp [New, Reset]

theorem winv_grow {s : Buffer} (h : WInv s) (n : Int) : WInv (grow s n) := by
  obtain ⟨hu, hb, hn, h1, h2, h3⟩ := h
  unfold grow
  have hm : 1 ≤ n.toNat / s.blockSize + 1 := Nat.le_add_left 1 _
  set m : Nat := n.toNat / s.blockSize + 1 with hmdef
  refine ⟨?_, by simpa, ?_, by simpa, by simpa, ?_⟩
  · intro blk hblk
    simp only [List.mem_append] at hblk
    rcases hblk with (hblk | hblk) | hblk
    · exact hu _ (List.mem_of_mem_take hblk)
    · rcases List.eq_of_mem_replicate hblk with rfl
      simp
    · exact hu _ (List.mem_of_mem_drop hblk)
  · simp only [List.length_append, List.length_take, List.length_drop, List.length_replicate]
    omega
  · simp only
    push_cast
    omega

theorem winv_stepNext {s : Buffer} (h : WInv s) : WInv (stepNext s) := by
  obtain ⟨hu, hb, hn, h1, h2, h3⟩ := h
  unfold stepNext
  split
  · exact ⟨hu, hb, hn, h1, h2, h3⟩
  · next hc =>
    push_neg at hc
    refine ⟨hu, hb, hn, by simp [hb.le], by simpa, ?_⟩
    simp only
    rw [hc.1] at h3
    push_cast
    omega

theorem winv_stepNextChecked {s s' : Buffer} (h : WInv s) (hs : stepNextChecked s = some s') :
    WInv s' := by
  obtain ⟨hu, hb, hn, h1, h2, h3⟩ := h
  unfold stepNextChecked at hs
  split at hs
  · cases hs
  · next hc =>
    push_neg at hc
    cases hs
    refine ⟨hu, hb, hn, by simp [hb.le], by simpa, ?_⟩
    simp only
    rw [hc.1] at h3
    push_cast
    omega


/-- `winv_reset` from the structural facts alone. -/
theorem winv_reset' {s : Buffer} (hu : ∀ b ∈ s.blocks, b.length = s.blockSize)
    (hb : 0 < s.blockSize) (hn : 0 < s.blocks.length) : WInv (Reset s) :=
  ⟨hu, hb, hn, by simp [Reset, hb.le], by simp [Reset], by simp [Reset]⟩

theorem skipHops_fields : ∀ (k : Nat) (s : Buffer),
    (skipHops k s).blocks = s.blocks ∧ (skipHops k s).prI = s.prI ∧
    (skipHops k s).pwR = s.pwR ∧ (skipHops k s).pwI = s.pwI ∧
    (skipHops k s).blockSize = s.blockSize ∧ (skipHops k s).left = s.left ∧
    (skipHops k s).maxCap = s.maxCap ∧
    (skipHops k s).cap = s.cap + (k * s.blockSize : Nat)
  | 0, s => by
    simp [skipHops]
  | k + 1, s => by
    have ih := skipHops_fields k
      { s with prR := ringNext s s.prR, cap := s.cap + (s.blockSize : Int) }
    simp only [skipHops] at ih ⊢
    obtain ⟨i1, i2, i3, i4, i5, i6, i7, i8⟩ := ih
    refine ⟨i1, i2, i3, i4, i5, i6, i7, ?_⟩
    rw [i8]
    push_cast
    ring

theorem skipHops_blocks (k : Nat) (s : Buffer) : (skipHops k s).blocks = s.blocks :=
  (skipHops_fields k s).1

theorem skipHops_prI (k : Nat) (s : Buffer) : (skipHops k s).prI = s.prI :=
  (skipHops_fields k s).2.1

theorem skipHops_pwR (k : Nat) (s : Buffer) : (skipHops k s).pwR = s.pwR :=
  (skipHops_fields k s).2.2.1

theorem skipHops_pwI (k : Nat) (s : Buffer) : (skipHops k s).pwI = s.pwI :=
  (skipHops_fields k s).2.2.2.1

theorem skipHops_blockSize (k : Nat) (s : Buffer) : (skipHops k s).blockSize = s.blockSize :=
  (skipHops_fields k s).2.2.2.2.1

theorem skipHops_left (k : Nat) (s : Buffer) : (skipHops k s).left = s.left :=
  (skipHops_fields k s).2.2.2.2.2.1

theorem skipHops_maxCap (k : Nat) (s : Buffer) : (skipHops k s).maxCap = s.maxCap :=
  (skipHops_fields k s).2.2.2.2.2.2.1

theorem skipHops_cap (k : Nat) (s : Buffer) :
    (skipHops k s).cap = s.cap + (k * s.blockSize : Nat) :=
  (skipHops_fields k s).2.2.2.2.2.2.2

theorem skipHops_prR : ∀ (k : Nat) (s : Buffer), s.prR < s.blocks.length →
    (skipHops k s).prR = (s.prR + k) % s.blocks.length
  | 0, s, h => by
    simp [skipHops, Nat.mod_eq_of_lt h]
  | k + 1, s, h => by
    have hn : 0 < s.blocks.length := Nat.pos_of_ne_zero (by omega)
    have ih := skipHops_prR k
      { s with prR := ringNext s s.prR, cap := s.cap + (s.blockSize : Int) }
      (by simpa [ringNext] using Nat.mod_lt _ hn)
    simp only [skipHops] at ih ⊢
    rw [ih]
    simp only [ringNext]
    rw [Nat.mod_add_mod]
    ring_nf

theorem skip_fields (s : Buffer) (n : Int) :
    (Skip s n).blocks = s.blocks ∧
    (Skip s n).blockSize = s.blockSize ∧ (Skip s n).maxCap = s.maxCap := by
  simp only [Skip, stepNext]
  repeat' split
  all_goals
    simp [Reset, skipHops_blocks, skipHops_pwR, skipHops_pwI, skipHops_blockSize,
      skipHops_maxCap, ringNext, skipHops_left, skipHops_cap, skipHops_prI]


theorem winv_skip {s : Buffer} (h : WInv s) (n₀ : Int) : WInv (Skip s n₀) := by
  obtain ⟨hu, hb, hn, h1, h2, h3⟩ := h
  simp only [Skip]
  set n : Int := if n₀ > s.left then s.left else n₀ with hndef
  split
  · exact ⟨hu, hb, hn, h1, h2, h3⟩
  next hpos =>
  push_neg at hpos
  split
  · exact winv_reset' hu hb hn
  next hnz =>
  split
  case isTrue hfit =>
    apply winv_stepNext
    refine ⟨hu, hb, hn, ?_, h2, ?_⟩
    · simp only
      omega
    · simp only
      push_cast
      omega
  case isFalse hover =>
  push_neg at hover
  have hbz : (s.blockSize : Int) ≠ 0 := by
    exact_mod_cast hb.ne'
  have hbpos : (0 : Int) < (s.blockSize : Int) := by exact_mod_cast hb
  have hstep : (1 : Int) ≤ n - ((s.blockSize : Int) - (s.prI : Int)) := by omega
  set q : Int := (n - ((s.blockSize : Int) - (s.prI : Int))) / (s.blockSize : Int) with hqdef
  set r : Int := (n - ((s.blockSize : Int) - (s.prI : Int))) % (s.blockSize : Int) with hrdef
  have hdm : (s.blockSize : Int) * q + r = n - ((s.blockSize : Int) - (s.prI : Int)) :=
    Int.ediv_add_emod _ _
  have hr0 : 0 ≤ r := Int.emod_nonneg _ hbz
  have hrlt : r < (s.blockSize : Int) := Int.emod_lt_of_pos _ hbpos
  have hq0 : 0 ≤ q := Int.ediv_nonneg (by omega) hbpos.le
  split
  case isTrue htail =>
    refine ⟨?_, ?_, ?_, ?_, ?_, ?_⟩ <;>
      simp only [skipHops_blocks, skipHops_blockSize, skipHops_pwI, skipHops_cap,
        skipHops_left, skipHops_maxCap]
    · exact hu
    · exact hb
    · exact hn
    · omega
    · exact h2
    · push_cast [Int.toNat_of_nonneg hq0, Int.toNat_of_nonneg hr0]
      linear_combination h3 + hdm
  case isFalse hnotail =>
    have hreq : r = 0 := by omega
    apply winv_stepNext
    refine ⟨?_, ?_, ?_, ?_, ?_, ?_⟩ <;>
      simp only [skipHops_blocks, skipHops_blockSize, skipHops_pwI, skipHops_cap,
        skipHops_left, skipHops_maxCap]
    · exact hu
    · exact hb
    · exact hn
    · exact le_refl _
    · exact h2
    · push_cast [Int.toNat_of_nonneg hq0]
      linear_combination h3 + hdm - hreq

theorem truncLoop_fields : ∀ (fuel : Nat) (s : Buffer) (m : Int),
    (truncLoop fuel s m).blocks = s.blocks ∧ (truncLoop fuel s m).prR = s.prR ∧
    (truncLoop fuel s m).prI = s.prI ∧ (truncLoop fuel s m).blockSize = s.blockSize ∧
    (truncLoop fuel s m).left = s.left ∧ (truncLoop fuel s m).cap = s.cap ∧
    (truncLoop fuel s m).maxCap = s.maxCap ∧
    (s.pwI ≤ s.blockSize → (truncLoop fuel s m).pwI ≤ s.blockSize)
  | 0, s, m => by simp [truncLoop]
  | fuel + 1, s, m => by
    simp only [truncLoop]
    split
    · split
      · next hcross =>
        have ih := truncLoop_fields fuel
          { s with pwI := 0, pwR := ringNext s s.pwR } (m - ((s.blockSize : Int) - 0))
        simp only at ih
        exact ⟨ih.1, ih.2.1, ih.2.2.1, ih.2.2.2.1, ih.2.2.2.2.1, ih.2.2.2.2.2.1,
          ih.2.2.2.2.2.2.1, fun _ => ih.2.2.2.2.2.2.2 (Nat.zero_le _)⟩
      · next hstay =>
        push_neg at hstay
        next hm =>
        refine ⟨rfl, rfl, rfl, rfl, rfl, rfl, rfl, fun h => ?_⟩
        simp only
        omega
    · simp

theorem winv_truncate {s : Buffer} (h : WInv s) (n : Int) : WInv (Truncate s n) := by
  obtain ⟨hu, hb, hn, h1, h2, h3⟩ := h
  simp only [Truncate]
  split
  · exact winv_reset' hu hb hn
  split
  · exact ⟨hu, hb, hn, h1, h2, h3⟩
  next h4 h5 =>
  obtain ⟨t1, t2, t3, t4, t5, t6, t7, t8⟩ := truncLoop_fields (n.toNat + 1)
    { s with cap := s.cap + (s.left - n), left := n, pwI := s.prI, pwR := s.prR } n
  refine ⟨?_, ?_, ?_, ?_, ?_, ?_⟩
  · rw [t1, t4]
    exact hu
  · rw [t4]
    exact hb
  · rw [t1]
    exact hn
  · rw [t3, t4]
    exact h1
  · rw [t4]
    exact t8 h1
  · rw [t6, t5, t3, t7]
    show s.cap + (s.left - n) + n + (s.prI : Int) = s.maxCap
    omega


theorem winv_writeLoop (p : List Nat) : ∀ (fuel : Nat) (s s' : Buffer) (offset : Nat),
    WInv s → writeLoop p fuel s offset = some s' → WInv s'
  | 0, s, s', offset, _, h => by simp [writeLoop] at h
  | fuel + 1, s, s', offset, ⟨hu, hb, hn, h1, h2, h3⟩, h => by
    simp only [writeLoop] at h
    have hble := ringBytes_len_le hu s.pwR
    set buf := ringBytes s s.pwR with hbuf
    set cnt := min (buf.length - s.pwI) (p.length - offset) with hcnt
    have hc1 : cnt ≤ buf.length - s.pwI := min_le_left _ _
    have hchunk : ((p.drop offset).take cnt).length = cnt := by
      simp only [List.length_take, List.length_drop]
      omega
    have hmidu : ∀ b ∈ s.blocks.set s.pwR (spliceAt buf s.pwI ((p.drop offset).take cnt)),
        b.length = s.blockSize := by
      rcases Nat.lt_or_ge s.pwR s.blocks.length with hlt | hge
      · intro b hb'
        rcases List.mem_or_eq_of_mem_set hb' with hmem | rfl
        · exact hu _ hmem
        · rw [length_spliceAt (by rw [hchunk]; exact hc1)]
          exact ringBytes_len hu hlt
      · rw [List.set_eq_of_length_le hge]
        exact hu
    have hmid : WInv { s with
        blocks := s.blocks.set s.pwR (spliceAt buf s.pwI ((p.drop offset).take cnt))
        pwI := s.pwI + cnt, cap := s.cap - (cnt : Int), left := s.left + (cnt : Int) } := by
      refine ⟨hmidu, hb, by simpa using hn, h1, ?_, ?_⟩
      · simp only
        omega
      · simp only
        omega
    split at h
    · injection h with h'
      exact h' ▸ hmid
    · split at h
      · refine winv_writeLoop p fuel _ s' _ ?_ h
        obtain ⟨m1, m2, m3, m4, m5, m6⟩ := hmid
        exact ⟨m1, m2, m3, m4, by simp [hb.le], by push_cast; push_cast at m6; omega⟩
      · cases h

theorem winv_write {s : Buffer} (h : WInv s) {p : List Nat} {n : Nat} {s' : Buffer}
    (hw : Write s p = some (n, s')) : WInv s' := by
  simp only [Write] at hw
  set s₁ := if s.cap < (p.length : Int) then grow s ((p.length : Int) - s.cap) else s with hs₁
  have hw1 : WInv s₁ := by
    rw [hs₁]
    split
    · exact winv_grow h _
    · exact h
  split at hw
  · cases hw
  · rcases Option.map_eq_some'.1 hw with ⟨s₂, hw2, h'⟩
    cases h'
    exact winv_writeLoop p _ _ _ _ hw1 hw2

theorem winv_writeString {s : Buffer} (h : WInv s) {p : List Nat} {n : Nat} {s' : Buffer}
    (hw : WriteString s p = some (n, s')) : WInv s' :=
  winv_write h (hw : Write s p = some (n, s'))


theorem winv_readLoop (plen : Nat) : ∀ (fuel : Nat) (s s' : Buffer) (acc out : List Nat)
    (offset : Nat), WInv s → readLoop plen fuel s acc offset = some (s', out) → WInv s'
  | 0, s, s', acc, out, offset, _, h => by simp [readLoop] at h
  | fuel + 1, s, s', acc, out, offset, ⟨hu, hb, hn, h1, h2, h3⟩, h => by
    rw [readLoop] at h
    set e := if s.prR = s.pwR then s.pwI else s.blockSize with he
    have hee : e ≤ s.blockSize := by
      rw [he]
      split
      · exact h2
      · exact le_refl _
    set cnt := min (plen - offset) (e - s.prI) with hcnt
    have hc1 : cnt ≤ e - s.prI := min_le_right _ _
    have hmid : WInv { s with prI := s.prI + cnt, left := s.left - (cnt : Int) } := by
      refine ⟨hu, hb, hn, ?_, h2, ?_⟩
      · simp only
        omega
      · simp only
        push_cast
        omega
    split at h
    · cases h
    simp only at h
    split at h
    · cases h
      exact winv_stepNext hmid
    · rcases hst : stepNextChecked { s with prI := s.prI + cnt, left := s.left - (cnt : Int) }
        with _ | s₂
      · rw [hst] at h
        cases h
      · rw [hst] at h
        exact winv_readLoop plen fuel _ _ _ _ _ (winv_stepNextChecked hmid hst) h

theorem winv_read {s : Buffer} (h : WInv s) {plen : Nat} {n : Int} {e : Option GErr}
    {s' : Buffer} {out : List Nat} (hr : Read s plen = some (n, e, s', out)) : WInv s' := by
  simp only [Read] at hr
  split at hr
  · cases hr
    exact h
  split at hr
  · cases hr
    exact h
  rcases Option.map_eq_some'.1 hr with ⟨⟨s₂, acc⟩, hloop, h'⟩
  have h₂ := winv_readLoop plen _ _ _ _ _ _ h hloop
  obtain ⟨hu₂, hb₂, hn₂, _, _, _⟩ := h₂
  split at h'
  · cases h'
    exact winv_reset' hu₂ hb₂ hn₂
  · cases h'
    exact ⟨hu₂, hb₂, hn₂, ‹_›, ‹_›, ‹_›⟩

theorem winv_readByte {s : Buffer} (h : WInv s) {c : Nat} {e : Option GErr} {s' : Buffer}
    (hr : ReadByte s = some (c, e, s')) : WInv s' := by
  obtain ⟨hu, hb, hn, h1, h2, h3⟩ := h
  simp only [ReadByte] at hr
  split at hr
  · cases hr
    exact ⟨hu, hb, hn, h1, h2, h3⟩
  split at hr
  · cases hr
  next hin =>
  push_neg at hin
  have hmid : WInv { s with prI := s.prI + 1, left := s.left - 1 } := by
    refine ⟨hu, hb, hn, ?_, h2, ?_⟩
    · simp only
      have := ringBytes_len_le hu s.prR
      omega
    · simp only
      push_cast
      omega
  split at hr
  · cases hr
    obtain ⟨hu₂, hb₂, hn₂, _, _, _⟩ := hmid
    exact winv_reset' hu₂ hb₂ hn₂
  split at hr
  · rcases Option.map_eq_some'.1 hr with ⟨s₂, hstep, h'⟩
    cases h'
    exact winv_stepNextChecked hmid hstep
  · cases hr
    exact hmid


theorem winv_writeByte {s : Buffer} (h : WInv s) {c : Nat} {s' : Buffer}
    (hw : WriteByte s c = some s') : WInv s' := by
  simp only [WriteByte] at hw
  set s₁ := if s.cap = 0 then grow s 1 else s with hs₁
  have h₁ : WInv s₁ := by
    rw [hs₁]
    split
    · exact winv_grow h 1
    · exact h
  set s₂ := if s₁.pwI = s₁.blockSize then { s₁ with pwI := 0, pwR := ringNext s₁ s₁.pwR }
    else s₁ with hs₂
  have h₂ : WInv s₂ := by
    obtain ⟨hu, hb, hn, p1, p2, p3⟩ := h₁
    rw [hs₂]
    split
    · exact ⟨hu, hb, hn, p1, by simp [hb.le], by simpa using p3⟩
    · exact ⟨hu, hb, hn, p1, p2, p3⟩
  obtain ⟨hu, hb, hn, p1, p2, p3⟩ := h₂
  split at hw
  · cases hw
  next hin =>
  push_neg at hin
  cases hw
  refine ⟨?_, hb, by simpa using hn, p1, ?_, ?_⟩
  · intro b hb'
    rcases List.mem_or_eq_of_mem_set hb' with hmem | rfl
    · exact hu _ hmem
    · rw [List.length_set]
      rcases Nat.lt_or_ge s₂.pwR s₂.blocks.length with hlt | hge
      · exact ringBytes_len hu hlt
      · exfalso
        have : (ringBytes s₂ s₂.pwR).length = 0 := by
          unfold ringBytes
          rw [List.getD_eq_getElem?_getD, List.getElem?_eq_none hge]
          simp
        omega
  · simp only
    have := ringBytes_len_le hu s₂.pwR
    omega
  · simp only
    omega

/-- The buffer state an outcome of `readFrom` carries (the post state on a
normal return, the pre-pull state on the negative-count panic). -/
def RfOut.state : RfOut → Buffer
  | .normal _ _ s => s
  | .panicked s => s

theorem winv_readFromLoop (pipe : Bool) : ∀ (script : List SrcResp) (s : Buffer) (total : Int)
    (out : RfOut), WInv s → readFromLoop pipe s total script = some out → WInv out.state
  | [], s, total, out, _, h => by simp [readFromLoop] at h
  | .neg :: rest, s, total, out, hw, h => by
    simp only [readFromLoop] at h
    cases h
    exact hw
  | .ok data e :: rest, s, total, out, ⟨hu, hb, hn, h1, h2, h3⟩, h => by
    simp only [readFromLoop] at h
    split at h
    · cases h
    next hfit =>
    push_neg at hfit
    rw [List.length_drop] at hfit
    have hble := ringBytes_len_le hu s.pwR
    have hmid : WInv { s with
        blocks := s.blocks.set s.pwR (spliceAt (ringBytes s s.pwR) s.pwI data)
        cap := s.cap - (data.length : Int), pwI := s.pwI + data.length
        left := s.left + (data.length : Int) } := by
      refine ⟨?_, hb, by simpa using hn, h1, ?_, ?_⟩
      · rcases Nat.lt_or_ge s.pwR s.blocks.length with hlt | hge
        · intro b hb'
          rcases List.mem_or_eq_of_mem_set hb' with hmem | rfl
          · exact hu _ hmem
          · rw [length_spliceAt (by omega)]
            exact ringBytes_len hu hlt
        · rw [List.set_eq_of_length_le hge]
          exact hu
      · simp only
        omega
      · simp only
        omega
    split at h
    · cases h
      exact hmid
    next hcont =>
    set s₂ := if ({ s with
          blocks := s.blocks.set s.pwR (spliceAt (ringBytes s s.pwR) s.pwI data)
          cap := s.cap - (data.length : Int), pwI := s.pwI + data.length
          left := s.left + (data.length : Int) } : Buffer).cap = 0 then
            grow { s with
              blocks := s.blocks.set s.pwR (spliceAt (ringBytes s s.pwR) s.pwI data)
              cap := s.cap - (data.length : Int), pwI := s.pwI + data.length
              left := s.left + (data.length : Int) } 1
          else { s with
            blocks := s.blocks.set s.pwR (spliceAt (ringBytes s s.pwR) s.pwI data)
            cap := s.cap - (data.length : Int), pwI := s.pwI + data.length
            left := s.left + (data.length : Int) } with hs₂
    have h₂ : WInv s₂ := by
      rw [hs₂]
      split
      · exact winv_grow hmid 1
      · exact hmid
    obtain ⟨hu₂, hb₂, hn₂, q1, q2, q3⟩ := h₂
    have h₃ : WInv (if s₂.pwI = s₂.blockSize then
        { s₂ with pwI := 0, pwR := ringNext s₂ s₂.pwR } else s₂) := by
      split
      · exact ⟨hu₂, hb₂, hn₂, q1, by simp [hb₂.le], by simpa using q3⟩
      · exact ⟨hu₂, hb₂, hn₂, q1, q2, q3⟩
    exact winv_readFromLoop pipe rest _ _ _ h₃ h


attribute [ext] Buffer

theorem writeToFull_fields {s : Buffer} {n : Int} {s' : Buffer} {out : List Nat}
    (h : WriteToFull s = some (n, s', out)) :
    s'.blocks = s.blocks ∧ s'.blockSize = s.blockSize ∧ s'.maxCap = s.maxCap := by
  simp only [WriteToFull] at h
  split at h
  · cases h
    exact ⟨rfl, rfl, rfl⟩
  split at h
  · split at h
    · cases h
    · cases h
      split
      · exact ⟨rfl, rfl, rfl⟩
      · exact ⟨rfl, rfl, rfl⟩
  · rcases Option.map_eq_some'.1 h with ⟨spans, hp, h'⟩
    cases h'
    exact skip_fields s ((spans.flatten.length : Nat) : Int)

theorem bytes_state {s : Buffer} {out : List Nat} {s₂ : Buffer}
    (h : Bytes s = some (out, s₂)) : s₂ = s := by
  simp only [Bytes] at h
  split at h
  · cases h
    rfl
  · rcases Option.map_eq_some'.1 h with ⟨⟨n, s', o⟩, hfull, h'⟩
    cases h'
    obtain ⟨e1, e2, e3⟩ := writeToFull_fields hfull
    ext
    · rw [e1]
    · rfl
    · rfl
    · rfl
    · rfl
    · rw [e2]
    · rfl
    · rfl
    · rw [e3]

theorem winv_bytes {s : Buffer} (h : WInv s) {out : List Nat} {s₂ : Buffer}
    (hb : Bytes s = some (out, s₂)) : WInv s₂ := (bytes_state hb) ▸ h

theorem winv_writeTo {s : Buffer} (h : WInv s) {acc : Int} {werr : Option GErr} {n : Int}
    {e : Option GErr} {s' : Buffer} {off : List Nat}
    (hw : WriteTo s acc werr = some (n, e, s', off)) (hacc : acc ≤ (off.length : Int)) :
    WInv s' := by
  obtain ⟨hu, hb, hn, h1, h2, h3⟩ := h
  simp only [WriteTo] at hw
  split at hw
  · cases hw
    exact ⟨hu, hb, hn, h1, h2, h3⟩
  next hne =>
  split at hw
  case isTrue hfast =>
    split at hw
    · cases hw
    next hok =>
    push_neg at hok
    cases hw
    rw [List.length_take, List.length_drop] at hacc
    set cnt : Int := if acc < 0 then 0 else acc with hcntdef
    have hc0 : 0 ≤ cnt := by
      rw [hcntdef]
      split <;> omega
    have hcle : cnt ≤ s.left := by
      rw [hcntdef]
      have hok2 := hok.2
      have hok1 := hok.1
      split
      · omega
      · have : (min s.left.toNat ((ringBytes s s.prR).length - s.prI) : Int) ≤ s.left := by
          omega
        omega
    have hmid : WInv { s with prI := s.prI + cnt.toNat, left := s.left - cnt } := by
      refine ⟨hu, hb, hn, ?_, h2, ?_⟩
      · simp only
        omega
      · simp only
        push_cast [Int.toNat_of_nonneg hc0]
        omega
    split
    · obtain ⟨hu₂, hb₂, hn₂, _, _, _⟩ := hmid
      exact winv_reset' hu₂ hb₂ hn₂
    · exact hmid
  case isFalse hgen =>
    rcases Option.map_eq_some'.1 hw with ⟨spans, hp, h'⟩
    cases h'
    exact winv_skip ⟨hu, hb, hn, h1, h2, h3⟩ acc


/-! ### Reachability through the public API -/

/-- One public operation, with external collaborators constrained only by
their interface contracts: a sink accepts at most what it is offered, a
source never overfills the free region of the write block (`readFromLoop`
rejects such responses itself). -/
inductive Step : Buffer → Buffer → Prop where
  | write {s s' : Buffer} {p : List Nat} {n : Nat} :
      Write s p = some (n, s') → Step s s'
  | writeString {s s' : Buffer} {p : List Nat} {n : Nat} :
      WriteString s p = some (n, s') → Step s s'
  | writeByte {s s' : Buffer} {c : Nat} : WriteByte s c = some s' → Step s s'
  | read {s s' : Buffer} {plen : Nat} {n : Int} {e : Option GErr} {out : List Nat} :
      Read s plen = some (n, e, s', out) → Step s s'
  | readByte {s s' : Buffer} {c : Nat} {e : Option GErr} :
      ReadByte s = some (c, e, s') → Step s s'
  | skip {s : Buffer} (k : Int) : Step s (Skip s k)
  | truncate {s : Buffer} (k : Int) : Step s (Truncate s k)
  | reset {s : Buffer} : Step s (Reset s)
  | close {s : Buffer} : Step s (Close s).2
  | writeTo {s s' : Buffer} {acc : Int} {werr : Option GErr} {n : Int} {e : Option GErr}
      {off : List Nat} : WriteTo s acc werr = some (n, e, s', off) →
      0 ≤ acc → acc ≤ (off.length : Int) → Step s s'
  | bytes {s s' : Buffer} {out : List Nat} : Bytes s = some (out, s') → Step s s'
  | readFrom {s : Buffer} {script : List SrcResp} {out : RfOut} (pipe : Bool) :
      readFromLoop pipe s 0 script = some out → Step s out.state

/-- States reachable from a constructed buffer by public operations. -/
inductive Reachable : Buffer → Prop where
  | new (size n : Nat) : Reachable (New size n)
  | step {s s' : Buffer} : Reachable s → Step s s' → Reachable s'

theorem winv_step {s s' : Buffer} (h : WInv s) (hs : Step s s') : WInv s' := by
  cases hs with
  | write hw => exact winv_write h hw
  | writeString hw => exact winv_writeString h hw
  | writeByte hw => exact winv_writeByte h hw
  | read hr => exact winv_read h hr
  | readByte hr => exact winv_readByte h hr
  | skip k => exact winv_skip h k
  | truncate k => exact winv_truncate h k
  | reset => exact winv_reset h
  | close => exact winv_reset h
  | writeTo hw h0 hacc => exact winv_writeTo h hw hacc
  | bytes hb => exact winv_bytes h hb
  | readFrom pipe hr => exact winv_readFromLoop pipe _ _ _ _ h hr

theorem winv_reachable {s : Buffer} (h : Reachable s) : WInv s := by
  induction h with
  | new size n => exact winv_new size n
  | step _ hs ih => exact winv_step ih hs

/-- C10: in every state reachable by any sequence of public operations the
core accounting identity holds exactly — `freeCapacity + length + readOffset
= totalCapacity` — with the read cursor's intra-block offset in
`[0, blockSize]`; by `winv_step`, every public operation preserves it. -/
theorem c10_accounting_identity (s : Buffer) (h : Reachable s) :
    s.cap + s.left + (s.prI : Int) = s.maxCap ∧ s.prI ≤ s.blockSize := by
  have hw := winv_reachable h
  exact ⟨hw.ident, hw.prI_le⟩

/-- Witness for `c10_accounting_identity` at the freshly constructed
`New 512 1`. -/
theorem c10_accounting_identity_witness :
    (New 512 1).cap + (New 512 1).left + ((New 512 1).prI : Int) = (New 512 1).maxCap ∧
    (New 512 1).prI ≤ (New 512 1).blockSize :=
  c10_accounting_identity (New 512 1) (Reachable.new 512 1)


/-! ### `ReadFrom` / `ReadFromPipe` control flow -/

/-- Total number of bytes delivered by a script of source responses. -/
def scriptBytes : List SrcResp → Int
  | [] => 0
  | .ok d _ :: rest => (d.length : Int) + scriptBytes rest
  | .neg :: rest => scriptBytes rest

/-- The `(total, err)` pair of a normal `readFrom` return. -/
def RfOut.result : RfOut → Option (Int × Option GErr)
  | .normal t e _ => some (t, e)
  | .panicked _ => none

theorem readFromLoop_all_none_eof : ∀ (mid : List SrcResp) (s : Buffer) (total : Int)
    (dl : List Nat) (out : RfOut),
    (∀ r ∈ mid, ∃ d, r = SrcResp.ok d none) →
    readFromLoop false s total (mid ++ [.ok dl (some .eof)]) = some out →
    out.result = some (total + scriptBytes mid + dl.length, none)
  | [], s, total, dl, out, _, h => by
    simp only [List.nil_append, readFromLoop] at h
    split at h
    · cases h
    · simp only [Option.isSome_some, true_or, if_pos] at h
      cases h
      simp [RfOut.result, scriptBytes]
  | r :: mid, s, total, dl, out, hall, h => by
    obtain ⟨d, rfl⟩ := hall r (List.mem_cons_self r mid)
    simp only [List.cons_append, readFromLoop] at h
    split at h
    · cases h
    · simp only [Option.isSome_none, Bool.false_eq_true, false_and, or_self, if_neg,
        not_false_eq_true] at h
      have ih := readFromLoop_all_none_eof mid _ _ dl out
        (fun r hr => hall r (List.mem_cons_of_mem _ hr)) h
      rw [ih]
      congr 2
      simp only [scriptBytes]
      ring

/-- C6: `ReadFrom` keeps pulling across short reads while the source reports
no error, and a terminal end-of-stream is reported as success: on a script of
error-free pulls followed by an end-of-stream pull it consumes the whole
script and returns the accumulated byte total with a nil error.
`ReadFromPipe` instead returns right after the first pull that fills less
than the space it was offered — no end-of-stream needed — without touching
the rest of the script, reporting that single pull's byte count. -/
theorem c6_readFrom_pull_policy (s : Buffer) (mid : List SrcResp) (dl d : List Nat)
    (rest : List SrcResp)
    (hall : ∀ r ∈ mid, ∃ d', r = SrcResp.ok d' none)
    (hsome : (ReadFrom s (mid ++ [.ok dl (some .eof)])).isSome = true)
    (hshort : d.length < ((ringBytes s s.pwR).drop s.pwI).length) :
    (ReadFrom s (mid ++ [.ok dl (some .eof)])).map RfOut.result
        = some (some (scriptBytes mid + dl.length, none)) ∧
    (ReadFromPipe s (.ok d none :: rest)).map RfOut.result
        = some (some ((d.length : Int), none)) := by
  constructor
  · rcases Option.isSome_iff_exists.1 hsome with ⟨out, hout⟩
    have := readFromLoop_all_none_eof mid s 0 dl out hall hout
    rw [(hout : ReadFrom s _ = _), Option.map_some', this]
    norm_num
  · simp only [ReadFromPipe, readFromLoop]
    rw [List.length_drop] at hshort
    rw [if_neg (by rw [List.length_drop]; omega)]
    simp only [Option.isSome_none, Bool.false_eq_true, false_and, true_and, List.length_drop]
    rw [if_pos (Or.inr hshort)]
    simp [RfOut.result]

set_option maxRecDepth 40000 in
/-- Witness for `c6_readFrom_pull_policy`: a fresh buffer, an empty
error-free script segment, an end-of-stream pull, and a short pull. -/
theorem c6_readFrom_pull_policy_witness :
    (ReadFrom (New 512 1) ([] ++ [.ok [9] (some .eof)])).map RfOut.result
        = some (some (scriptBytes [] + ([9] : List Nat).length, none)) ∧
    (ReadFromPipe (New 512 1) (.ok [5] none :: [])).map RfOut.result
        = some (some ((([5] : List Nat).length : Int), none)) :=
  c6_readFrom_pull_policy (New 512 1) [] [9] [5] []
    (fun r hr => absurd hr (List.not_mem_nil r))
    (by decide)
    (by decide)

/-- C7: a source returning a negative count makes `readFrom` — at whichever
pull of `ReadFrom` or `ReadFromPipe` the violation occurs, `s` being the
buffer state reached just before that pull — abort at once through the panic
path, an outcome distinct from every normal return (end-of-stream included),
carrying the pre-pull state completely unmodified; in particular an empty
buffer stays at `length = 0`. -/
theorem c7_negative_count_panics (pipe : Bool) (s : Buffer) (total : Int)
    (rest : List SrcResp) :
    readFromLoop pipe s total (.neg :: rest) = some (RfOut.panicked s) ∧
    (RfOut.panicked s).state = s ∧
    (∀ (t : Int) (e : Option GErr) (s₂ : Buffer), RfOut.panicked s ≠ RfOut.normal t e s₂) ∧
    (s.left = 0 → (RfOut.panicked s).state.left = 0) := by
  refine ⟨by simp [readFromLoop], rfl, ?_, fun h => h⟩
  intro t e s₂ hne
  exact RfOut.noConfusion hne


/-! ### Concrete executions exhibiting the `Truncate` relocation bug

`Truncate`'s relocation loop zeroes `pw.i` before computing
`m -= blockSize - pw.i`, so the first boundary crossing discards
`blockSize` instead of `blockSize - pr.i` bytes of budget.  With a read
cursor at a nonzero intra-block offset, the relocated write cursor lands
`pr.i` bytes short of where `left` says it should be, leaving `left` larger
than the geometric span between the cursors. -/

/-- `New(512, 3)`. -/
def c2s0 : Buffer := New 512 3

/-- after `Write` of 1536 zero bytes (fills all three blocks). -/
def c2s1 : Buffer := ((Write c2s0 (List.replicate 1536 0)).getD (0, c2s0)).2

/-- after `Read` of 100 bytes (read cursor at offset 100). -/
def c2s2 : Buffer := (Read c2s1 100).elim c2s1 (fun r => r.2.2.1)

/-- after `Truncate(962)` — the buggy relocation puts the write cursor at
block 1 offset 450 while `left = 962` claims a span of 962 from block 0
offset 100. -/
def c2s3 : Buffer := Truncate c2s2 962

/-- after `Skip(950)`: the read cursor overshoots the write cursor into
block 2. -/
def c2s4 : Buffer := Skip c2s3 950

/-- after `Read` of 50 bytes: `left` goes negative (-38). -/
def c2s5 : Buffer := (Read c2s4 50).elim c2s4 (fun r => r.2.2.1)

/-- after `ReadFrom` of a source delivering exactly 38 bytes and then
end-of-stream: `left` lands back on 0 with no reset, so
`freeCapacity < totalCapacity` while `length = 0`. -/
def c2s6 : Buffer :=
  ((ReadFrom c2s5 [.ok (List.replicate 38 9) none, .ok [] (some .eof)]).getD
    (RfOut.panicked c2s5)).state

set_option maxRecDepth 1000000 in
/-- C2: refutation.  The state `c2s6` is reachable by public operations
(`Write`, `Read`, `Truncate`, `Skip`, `Read`, `ReadFrom`), has `length = 0`,
yet `freeCapacity = 1460 < 1536 = totalCapacity`: draining to `length == 0`
did not restore `freeCapacity == totalCapacity`.  (The inequality half of
the claim, with the deficit bounded by one block, does hold on every
reachable state: it is `c10_accounting_identity` plus `WInv.prI_le`.) -/
theorem c2_drain_equality_violated :
    Reachable c2s6 ∧ c2s6.left = 0 ∧ c2s6.cap = 1460 ∧ c2s6.maxCap = 1536 := by
  refine ⟨?_, by decide, by decide, by decide⟩
  have h0 : Reachable c2s0 := Reachable.new 512 3
  have h1 : Reachable c2s1 := h0.step (Step.write
    (by decide : Write c2s0 (List.replicate 1536 0) = some (1536, c2s1)))
  have h2 : Reachable c2s2 := h1.step (Step.read
    (by decide : Read c2s1 100 = some (100, none, c2s2, List.replicate 100 0)))
  have h3 : Reachable c2s3 := h2.step (Step.truncate 962)
  have h4 : Reachable c2s4 := h3.step (Step.skip 950)
  have h5 : Reachable c2s5 := h4.step (Step.read
    (by decide : Read c2s4 50 = some (12, none, c2s5, List.replicate 50 0)))
  exact h5.step (Step.readFrom false
    (by decide : readFromLoop false c2s5 0
      [.ok (List.replicate 38 9) none, .ok [] (some .eof)]
      = some (RfOut.normal 38 none c2s6)))


/-- A 700-byte payload with pairwise-distinguishable content. -/
def c3p : List Nat := (List.range 700).map (· % 251)

/-- `New(512, 2)` after writing `c3p` (700 bytes, crossing into block 1). -/
def c3s1 : Buffer := ((Write (New 512 2) c3p).getD (0, New 512 2)).2

/-- ... after reading 100 bytes: 600 readable bytes remain, read cursor at
block 0 offset 100. -/
def c3s2 : Buffer := (Read c3s1 100).elim c3s1 (fun r => r.2.2.1)

/-- ... after `Truncate(450)`. -/
def c3s3 : Buffer := Truncate c3s2 450

set_option maxRecDepth 1000000 in
/-- C3: refutation of the content clause on a reachable state.  After
`Truncate(450)` of a 600-byte buffer whose read cursor sits at intra-block
offset 100, the claim demands 450 readable bytes — the first 450 of the
prior content.  Instead the buggy write-cursor relocation (it zeroes `pw.i`
before `m -= blockSize - pw.i`) leaves `left = 450` but the cursors only
412 bytes apart, and materializing the content yields 824 bytes (the
412-byte block tail twice).  `freeCapacity` does increase by exactly
`600 - 450 = 150` (from 324 to 474), so only the relocation is at fault. -/
theorem c3_truncate_bug :
    Reachable c3s3 ∧
    c3s3.left = 450 ∧ c3s3.cap = c3s2.cap + (600 - 450) ∧
    (Bytes c3s3).map (fun r => r.1.length) = some 824 ∧ (824 : Nat) ≠ 450 := by
  refine ⟨?_, by decide, by decide, by decide, by decide⟩
  have h1 : Reachable c3s1 := (Reachable.new 512 2).step (Step.write
    (by decide : Write (New 512 2) c3p = some (700, c3s1)))
  have h2 : Reachable c3s2 := h1.step (Step.read
    (by decide : Read c3s1 100 = some (100, none, c3s2, (List.range 100).map (· % 251))))
  exact h2.step (Step.truncate 450)

set_option maxRecDepth 1000000 in
/-- C4: counterexample to `m = ceil(n / blockSize)`.  For `n = 512` on a
fresh one-block buffer (`blockSize = 512`), the claimed block count is
`ceil(512/512) = 1` and the claimed capacity increase `512`; `grow` actually
allocates `512/512 + 1 = 2` blocks and adds `1024` bytes. -/
theorem c4_grow_count_counterexample :
    (grow (New 512 1) 512).blocks.length = (New 512 1).blocks.length + 2 ∧
    (grow (New 512 1) 512).maxCap = (New 512 1).maxCap + 1024 ∧
    (512 + 512 - 1) / 512 = 1 ∧ (2 : Nat) ≠ 1 ∧ ((1024 : Int)) ≠ 512 := by
  refine ⟨?_, ?_, by norm_num, by norm_num, by norm_num⟩ <;> decide

set_option maxRecDepth 1000000 in
/-- C8: counterexample to "EndOfData whenever `length == 0` at call time".
`Read` checks the destination capacity first: on an empty buffer with a
zero-capacity destination it returns `(0, nil)`, not `io.EOF`. -/
theorem c8_empty_dest_counterexample :
    (New 512 1).left = 0 ∧
    Read (New 512 1) 0 = some (0, none, New 512 1, []) ∧
    (none : Option GErr) ≠ some GErr.eof := by
  refine ⟨by decide, by decide, by decide⟩


/-! ### Flattened-ring view and the geometric invariant -/

/-- Ring distance (in blocks) from the read block to the write block. -/
def ringIdxW (s : Buffer) : Nat := (s.pwR + s.blocks.length - s.prR) % s.blocks.length

/-- Flat position of the write cursor, measured in bytes from the start of
the read block along the ring. -/
def pwPos (s : Buffer) : Nat := s.blockSize * ringIdxW s + s.pwI

/-- The ring's bytes linearized starting at the read block. -/
def flat (s : Buffer) : List Nat :=
  (s.blocks.drop s.prR ++ s.blocks.take s.prR).flatten

/-- The readable content: the `left` bytes starting at the read cursor. -/
def contents (s : Buffer) : List Nat := ((flat s).drop s.prI).take s.left.toNat

/-- The geometric invariant: block shapes, cursor ranges, the write cursor
sitting exactly `left` bytes past the read cursor along the ring, and the
accounting counters agreeing with the geometry.  It holds in every state
`Truncate`'s buggy relocation has not corrupted. -/
structure Inv (s : Buffer) : Prop where
  uniform : ∀ b ∈ s.blocks, b.length = s.blockSize
  bsPos : 0 < s.blockSize
  prR_lt : s.prR < s.blocks.length
  pwR_lt : s.pwR < s.blocks.length
  prI_lt : s.prI < s.blockSize
  pwI_le : s.pwI ≤ s.blockSize
  left_eq : s.left = (pwPos s : Int) - (s.prI : Int)
  prI_le : s.prI ≤ pwPos s
  cap_eq : s.cap = s.maxCap - s.left - (s.prI : Int)
  maxCap_eq : s.maxCap = (s.blocks.length * s.blockSize : Nat)
  empty_prI : s.left = 0 → s.prI = 0

theorem Inv.nbPos {s : Buffer} (h : Inv s) : 0 < s.blocks.length :=
  lt_of_le_of_lt (Nat.zero_le _) h.prR_lt

theorem Inv.winv {s : Buffer} (h : Inv s) : WInv s :=
  ⟨h.uniform, h.bsPos, h.nbPos, h.prI_lt.le, h.pwI_le, by rw [h.cap_eq]; ring⟩

theorem Inv.ringIdxW_lt {s : Buffer} (h : Inv s) : ringIdxW s < s.blocks.length :=
  Nat.mod_lt _ h.nbPos

theorem Inv.pwPos_le {s : Buffer} (h : Inv s) :
    pwPos s ≤ s.blocks.length * s.blockSize := by
  have h1 := h.ringIdxW_lt
  have h2 := h.pwI_le
  unfold pwPos
  have : s.blockSize * ringIdxW s + s.blockSize ≤ s.blocks.length * s.blockSize := by
    have : ringIdxW s + 1 ≤ s.blocks.length := h1
    calc s.blockSize * ringIdxW s + s.blockSize = s.blockSize * (ringIdxW s + 1) := by ring
    _ ≤ s.blockSize * s.blocks.length := Nat.mul_le_mul_left _ this
    _ = s.blocks.length * s.blockSize := Nat.mul_comm _ _
  omega

theorem Inv.left_nonneg {s : Buffer} (h : Inv s) : 0 ≤ s.left := by
  have := h.left_eq
  have := h.prI_le
  omega

theorem Inv.left_toNat {s : Buffer} (h : Inv s) : s.left.toNat = pwPos s - s.prI := by
  have := h.left_eq
  have := h.prI_le
  omega

theorem Inv.left_le {s : Buffer} (h : Inv s) :
    s.left ≤ ((s.blocks.length * s.blockSize : Nat) : Int) := by
  have := h.left_eq
  have := h.pwPos_le
  have := h.prI_le
  omega

/-! #### Flatten lemmas for uniform block lists -/

theorem flatten_uniform_length {bs : Nat} : ∀ {L : List (List Nat)},
    (∀ b ∈ L, b.length = bs) → L.flatten.length = L.length * bs
  | [], _ => by simp
  | b :: L, h => by
    have hb := h b (List.mem_cons_self b L)
    have ih := flatten_uniform_length (L := L) (fun x hx => h x (List.mem_cons_of_mem _ hx))
    simp only [List.flatten_cons, List.length_append, ih, List.length_cons, hb]
    ring

theorem flatten_drop_uniform {bs : Nat} : ∀ (j : Nat) {L : List (List Nat)},
    (∀ b ∈ L, b.length = bs) → (L.drop j).flatten = L.flatten.drop (j * bs)
  | 0, L, _ => by simp
  | j + 1, [], _ => by simp
  | j + 1, b :: L, h => by
    have hb := h b (List.mem_cons_self b L)
    have ih := flatten_drop_uniform j (L := L) (fun x hx => h x (List.mem_cons_of_mem _ hx))
    simp only [List.drop_succ_cons, List.flatten_cons, ih]
    rw [show (j + 1) * bs = b.length + j * bs by rw [hb]; ring, List.drop_append]

theorem flatten_take_uniform {bs : Nat} : ∀ (j : Nat) {L : List (List Nat)},
    (∀ b ∈ L, b.length = bs) → (L.take j).flatten = L.flatten.take (j * bs)
  | 0, L, _ => by simp
  | j + 1, [], _ => by simp
  | j + 1, b :: L, h => by
    have hb := h b (List.mem_cons_self b L)
    have ih := flatten_take_uniform j (L := L) (fun x hx => h x (List.mem_cons_of_mem _ hx))
    simp only [List.take_succ_cons, List.flatten_cons, ih]
    rw [show (j + 1) * bs = b.length + j * bs by rw [hb]; ring, List.take_append]

theorem flatten_set_uniform {bs : Nat} : ∀ {j : Nat} {L : List (List Nat)},
    (∀ b ∈ L, b.length = bs) → j < L.length → ∀ (b : List Nat),
    (L.set j b).flatten
      = L.flatten.take (j * bs) ++ b ++ L.flatten.drop (j * bs + bs)
  | 0, x :: L, h, _, b => by
    have hx := h x (List.mem_cons_self x L)
    simp only [List.set_cons_zero, List.flatten_cons, Nat.zero_mul, List.take_zero,
      List.nil_append, Nat.zero_add]
    rw [← hx, List.drop_left]
  | j + 1, x :: L, h, hj, b => by
    have hx := h x (List.mem_cons_self x L)
    have ih := flatten_set_uniform (L := L) (j := j)
      (fun y hy => h y (List.mem_cons_of_mem _ hy)) (by simpa using hj) b
    simp only [List.set_cons_succ, List.flatten_cons, ih]
    rw [show (j + 1) * bs = x.length + j * bs by rw [hx]; ring]
    rw [show x.length + j * bs + bs = x.length + (j * bs + bs) by ring]
    rw [List.take_append, List.drop_append]
    simp [List.append_assoc]


/-! #### Rotation lemmas -/

theorem drop_set_of_le {α : Type} {l : List α} {i j : Nat} (h : j ≤ i) (a : α) :
    (l.set i a).drop j = (l.drop j).set (i - j) a := by
  apply List.ext_getElem
  · simp
  · intro n h₁ h₂
    simp only [List.getElem_drop, List.getElem_set]
    by_cases hc : i = j + n
    · rw [if_pos hc, if_pos (by omega)]
    · rw [if_neg hc, if_neg (by omega)]

theorem take_set_of_le {α : Type} {l : List α} {i j : Nat} (h : j ≤ i) (a : α) :
    (l.set i a).take j = l.take j := by
  apply List.ext_getElem
  · simp
  · intro n h₁ h₂
    simp only [List.length_take, List.length_set, lt_min_iff] at h₁
    simp only [List.getElem_take, List.getElem_set]
    rw [if_neg (by omega)]

theorem take_set_of_lt {α : Type} {l : List α} {i j : Nat} (_h : i < j) (a : α) :
    (l.set i a).take j = (l.take j).set i a := by
  apply List.ext_getElem
  · simp
  · intro n h₁ h₂
    simp only [List.getElem_take, List.getElem_set]

theorem drop_set_of_lt {α : Type} {l : List α} {i j : Nat} (h : i < j) (a : α) :
    (l.set i a).drop j = l.drop j := by
  apply List.ext_getElem
  · simp
  · intro n h₁ h₂
    simp only [List.getElem_drop, List.getElem_set]
    rw [if_neg (by omega)]

/-- Transport of `List.set` through the rotation that starts the list at
index `p`: the block at absolute index `r` sits at rotated index
`(r + N - p) % N`. -/
theorem rotate_set {α : Type} (L : List α) (p r : Nat) (hp : p ≤ L.length)
    (hr : r < L.length) (b : α) :
    (L.set r b).drop p ++ (L.set r b).take p
      = (L.drop p ++ L.take p).set ((r + L.length - p) % L.length) b := by
  rcases le_or_lt p r with hpr | hpr
  · have hidx : (r + L.length - p) % L.length = r - p := by
      rw [show r + L.length - p = (r - p) + L.length by omega]
      rw [Nat.add_mod_right]
      exact Nat.mod_eq_of_lt (by omega)
    rw [hidx, drop_set_of_le hpr, take_set_of_le hpr]
    rw [List.set_append]
    have hc1 : r - p < (L.drop p).length := by
      simp only [List.length_drop]
      omega
    rw [if_pos hc1]
  · have hidx : (r + L.length - p) % L.length = L.length - p + r := by
      rw [Nat.mod_eq_of_lt (by omega : r + L.length - p < L.length)]
      omega
    rw [hidx, drop_set_of_lt hpr, take_set_of_lt hpr]
    rw [List.set_append]
    have hc2 : ¬ (L.length - p + r < (L.drop p).length) := by
      simp only [List.length_drop]
      omega
    rw [if_neg hc2]
    have hix : L.length - p + r - (L.drop p).length = r := by
      simp only [List.length_drop]
      omega
    rw [hix]

/-- Advancing the rotation point by one ring step rotates the rotated list
by one block. -/
theorem rotate_succ {α : Type} (L : List α) (p : Nat) (hp : p < L.length) :
    L.drop ((p + 1) % L.length) ++ L.take ((p + 1) % L.length)
      = (L.drop p ++ L.take p).drop 1 ++ (L.drop p ++ L.take p).take 1 := by
  have hdrop : L.drop p = L[p] :: L.drop (p + 1) := List.drop_eq_getElem_cons hp
  rcases Nat.lt_or_ge (p + 1) L.length with hlt | hge
  · rw [Nat.mod_eq_of_lt hlt, hdrop]
    simp only [List.cons_append, List.drop_succ_cons, List.drop_zero, List.take_succ_cons,
      List.take_zero]
    rw [List.take_succ, List.getElem?_eq_getElem hp]
    simp [List.append_assoc]
  · have hp1 : p + 1 = L.length := by omega
    have hnil : L.drop (p + 1) = [] := List.drop_of_length_le (by omega)
    rw [hp1, Nat.mod_self, List.drop_zero, List.take_zero, List.append_nil, hdrop, hnil]
    simp only [List.cons_append, List.nil_append, List.drop_succ_cons, List.drop_zero,
      List.take_succ_cons, List.take_zero]
    conv_lhs => rw [← List.take_append_drop p L]
    rw [hdrop, hnil]


theorem uniform_rot {s : Buffer} (hu : ∀ b ∈ s.blocks, b.length = s.blockSize) :
    ∀ b ∈ s.blocks.drop s.prR ++ s.blocks.take s.prR, b.length = s.blockSize := by
  intro b hb
  rcases List.mem_append.1 hb with h | h
  · exact hu _ (List.mem_of_mem_drop h)
  · exact hu _ (List.mem_of_mem_take h)

theorem rot_length {s : Buffer} (hp : s.prR ≤ s.blocks.length) :
    (s.blocks.drop s.prR ++ s.blocks.take s.prR).length = s.blocks.length := by
  simp
  omega

theorem flat_length {s : Buffer} (hu : ∀ b ∈ s.blocks, b.length = s.blockSize)
    (hp : s.prR ≤ s.blocks.length) :
    (flat s).length = s.blocks.length * s.blockSize := by
  unfold flat
  rw [flatten_uniform_length (uniform_rot hu), rot_length hp]

theorem rot_getElem {α : Type} (L : List α) (p r : Nat) (hp : p ≤ L.length)
    (hr : r < L.length) (hb : (r + L.length - p) % L.length < (L.drop p ++ L.take p).length) :
    (L.drop p ++ L.take p)[(r + L.length - p) % L.length] = L[r] := by
  rcases le_or_lt p r with hpr | hpr
  · have hidx : (r + L.length - p) % L.length = r - p := by
      rw [show r + L.length - p = (r - p) + L.length by omega, Nat.add_mod_right,
        Nat.mod_eq_of_lt (by omega)]
    rw [List.getElem_append]
    simp only [hidx]
    rw [dif_pos (by simp only [List.length_drop]; omega)]
    rw [List.getElem_drop]
    congr 1
    omega
  · have hidx : (r + L.length - p) % L.length = L.length - p + r := by
      rw [Nat.mod_eq_of_lt (by omega : r + L.length - p < L.length)]
      omega
    rw [List.getElem_append]
    simp only [hidx]
    rw [dif_neg (by simp only [List.length_drop]; omega)]
    have : L.length - p + r - (L.drop p).length = r := by
      simp only [List.length_drop]
      omega
    simp only [this, List.getElem_take]

theorem getD_eq_getElem {α : Type} (L : List α) (r : Nat) (d : α) (hr : r < L.length) :
    L.getD r d = L[r] := by
  rw [List.getD_eq_getElem?_getD, List.getElem?_eq_getElem hr]
  rfl

/-- The block at ring index `r`, viewed inside the flattened ring. -/
theorem ringBytes_eq_flat {s : Buffer} (hu : ∀ b ∈ s.blocks, b.length = s.blockSize)
    (hp : s.prR < s.blocks.length) {r : Nat} (hr : r < s.blocks.length) :
    ringBytes s r
      = ((flat s).drop (((r + s.blocks.length - s.prR) % s.blocks.length) * s.blockSize)).take
          s.blockSize := by
  have hn : 0 < s.blocks.length := lt_of_le_of_lt (Nat.zero_le _) hp
  set j := (r + s.blocks.length - s.prR) % s.blocks.length with hj
  have hjlt : j < s.blocks.length := Nat.mod_lt _ hn
  have hrotlen := rot_length (s := s) hp.le
  unfold flat
  rw [← flatten_drop_uniform j (uniform_rot hu)]
  have hjlt' : j < (s.blocks.drop s.prR ++ s.blocks.take s.prR).length := by omega
  rw [List.drop_eq_getElem_cons hjlt', List.flatten_cons]
  rw [rot_getElem s.blocks s.prR r hp.le hr hjlt']
  have hlen : (s.blocks[r]).length = s.blockSize := hu _ (List.getElem_mem hr)
  rw [← hlen, List.take_left]
  exact (getD_eq_getElem _ _ _ hr).symm ▸ rfl

theorem ringidx_succ_w (N a b : Nat) (ha : a < N) (hb : b < N)
    (h : (b + N - a) % N + 1 < N) : ((b + 1) % N + N - a) % N = (b + N - a) % N + 1 := by
  rcases le_or_lt a b with hab | hab
  · have hd : (b + N - a) % N = b - a := by
      rw [show b + N - a = (b - a) + N by omega, Nat.add_mod_right,
        Nat.mod_eq_of_lt (by omega)]
    rw [hd] at h ⊢
    rcases Nat.lt_or_ge (b + 1) N with hb1 | hb1
    · rw [Nat.mod_eq_of_lt hb1, show b + 1 + N - a = (b - a + 1) + N by omega,
        Nat.add_mod_right, Nat.mod_eq_of_lt (by omega)]
    · have hbN : b + 1 = N := by omega
      have ha1 : 1 ≤ a := by omega
      rw [hbN, Nat.mod_self, Nat.zero_add, Nat.mod_eq_of_lt (by omega)]
      omega
  · have hd : (b + N - a) % N = b + N - a := Nat.mod_eq_of_lt (by omega)
    rw [hd] at h ⊢
    have hb1 : b + 1 < N := by omega
    rw [Nat.mod_eq_of_lt hb1, Nat.mod_eq_of_lt (by omega)]
    omega

theorem ringidx_succ_r (N a b : Nat) (ha : a < N) (hb : b < N)
    (h : 1 ≤ (b + N - a) % N) : (b + N - (a + 1) % N) % N = (b + N - a) % N - 1 := by
  rcases le_or_lt a b with hab | hab
  · have hd : (b + N - a) % N = b - a := by
      rw [show b + N - a = (b - a) + N by omega, Nat.add_mod_right,
        Nat.mod_eq_of_lt (by omega)]
    rw [hd] at h ⊢
    have ha1 : a + 1 < N := by omega
    rw [Nat.mod_eq_of_lt ha1, show b + N - (a + 1) = (b - (a + 1)) + N by omega,
      Nat.add_mod_right, Nat.mod_eq_of_lt (by omega)]
    omega
  · have hd : (b + N - a) % N = b + N - a := Nat.mod_eq_of_lt (by omega)
    rw [hd] at h ⊢
    rcases Nat.lt_or_ge (a + 1) N with ha1 | ha1
    · rw [Nat.mod_eq_of_lt ha1, Nat.mod_eq_of_lt (by omega)]
      omega
    · have haN : a + 1 = N := by omega
      rw [haN, Nat.mod_self, Nat.sub_zero, Nat.add_mod_right, Nat.mod_eq_of_lt hb]
      omega


/-! #### Effect of one write copy on the flattened ring -/

theorem flat_write_chunk {s : Buffer} (h : Inv s) (c : List Nat)
    (hc : s.pwI + c.length ≤ s.blockSize) :
    flat { s with blocks := s.blocks.set s.pwR (spliceAt (ringBytes s s.pwR) s.pwI c) }
      = spliceAt (flat s) (pwPos s) c := by
  have hg : ringIdxW s < s.blocks.length := Nat.mod_lt _ h.nbPos
  have hFlen : (flat s).length = s.blocks.length * s.blockSize :=
    flat_length h.uniform h.prR_lt.le
  have hblk : ringBytes s s.pwR
      = ((flat s).drop (ringIdxW s * s.blockSize)).take s.blockSize :=
    ringBytes_eq_flat h.uniform h.prR_lt h.pwR_lt
  have hrl := rot_length (s := s) h.prR_lt.le
  show ((s.blocks.set s.pwR (spliceAt (ringBytes s s.pwR) s.pwI c)).drop s.prR
      ++ (s.blocks.set s.pwR (spliceAt (ringBytes s s.pwR) s.pwI c)).take s.prR).flatten = _
  rw [rotate_set _ _ _ h.prR_lt.le h.pwR_lt _]
  rw [flatten_set_uniform (uniform_rot h.uniform) (by rw [hrl]; exact Nat.mod_lt _ h.nbPos) _]
  have hflat : (s.blocks.drop s.prR ++ s.blocks.take s.prR).flatten = flat s := rfl
  rw [hflat]
  unfold pwPos spliceAt
  rw [Nat.mul_comm s.blockSize (ringIdxW s)]
  set F := flat s with hF
  set g := ringIdxW s with hgdef
  set G := F.drop (g * s.blockSize) with hG
  have hGlen : s.blockSize ≤ G.length := by
    rw [hG, List.length_drop]
    have h2 : (g + 1) * s.blockSize ≤ s.blocks.length * s.blockSize :=
      Nat.mul_le_mul_right _ hg
    rw [Nat.succ_mul] at h2
    omega
  have hE1 : F.take (g * s.blockSize) ++ (ringBytes s s.pwR).take s.pwI
      = F.take (g * s.blockSize + s.pwI) := by
    rw [List.take_add, hblk, List.take_take,
      Nat.min_eq_left (le_trans (Nat.le_add_right _ _) hc)]
  have hE2 : (ringBytes s s.pwR).drop (s.pwI + c.length)
        ++ F.drop (g * s.blockSize + s.blockSize)
      = F.drop (g * s.blockSize + s.pwI + c.length) := by
    rw [hblk]
    rw [show g * s.blockSize + s.pwI + c.length
        = g * s.blockSize + (s.pwI + c.length) by ring]
    rw [← List.drop_drop (s.pwI + c.length) (g * s.blockSize),
      ← List.drop_drop s.blockSize (g * s.blockSize), ← hG]
    conv_rhs => rw [← List.take_append_drop s.blockSize G]
    rw [List.drop_append_eq_append_drop]
    congr 1
    rw [List.length_take, Nat.min_eq_left hGlen,
      show s.pwI + c.length - s.blockSize = 0 by omega, List.drop_zero]
  calc F.take (g * s.blockSize)
        ++ ((ringBytes s s.pwR).take s.pwI ++ c
            ++ (ringBytes s s.pwR).drop (s.pwI + c.length))
        ++ F.drop (g * s.blockSize + s.blockSize)
      = (F.take (g * s.blockSize) ++ (ringBytes s s.pwR).take s.pwI) ++ c
          ++ ((ringBytes s s.pwR).drop (s.pwI + c.length)
              ++ F.drop (g * s.blockSize + s.blockSize)) := by
        simp [List.append_assoc]
    _ = F.take (g * s.blockSize + s.pwI) ++ c
          ++ F.drop (g * s.blockSize + s.pwI + c.length) := by
        rw [hE1, hE2]


theorem contents_spliceAt_pw {s : Buffer} (h : Inv s) (c : List Nat)
    (hcle : pwPos s + c.length ≤ s.blocks.length * s.blockSize) :
    ((spliceAt (flat s) (pwPos s) c).drop s.prI).take (s.left.toNat + c.length)
      = contents s ++ c := by
  have hFlen : (flat s).length = s.blocks.length * s.blockSize :=
    flat_length h.uniform h.prR_lt.le
  have hPle : pwPos s ≤ (flat s).length := by omega
  have htl := h.left_toNat
  have hple := h.prI_le
  unfold spliceAt
  rw [List.append_assoc]
  rw [List.drop_append_eq_append_drop]
  rw [List.length_take, Nat.min_eq_left hPle,
    show s.prI - pwPos s = 0 by omega, List.drop_zero]
  have hlen1 : (((flat s).take (pwPos s)).drop s.prI).length = s.left.toNat := by
    simp only [List.length_drop, List.length_take]
    omega
  have hstep : s.left.toNat + c.length
      = (((flat s).take (pwPos s)).drop s.prI).length + c.length := by rw [hlen1]
  rw [hstep, List.take_append, List.take_append_of_le_length (le_refl c.length),
    List.take_length]
  congr 1
  rw [List.drop_take]
  unfold contents
  rw [htl]

theorem set_ringBytes_self {s : Buffer} (hr : s.pwR < s.blocks.length) :
    s.blocks.set s.pwR (ringBytes s s.pwR) = s.blocks := by
  apply List.ext_getElem
  · simp
  · intro n h₁ h₂
    rw [List.getElem_set]
    split
    · next heq =>
      subst heq
      exact getD_eq_getElem _ _ _ hr
    · rfl

/-- Wrapping the write cursor to the next block when it sits at a block
boundary and at least one more byte of capacity lies ahead: the flat
position of the write cursor, the flattened ring, the contents and the
invariant are all preserved. -/
theorem wrap_pw {s : Buffer} (h : Inv s) (hpwI : s.pwI = s.blockSize)
    (hlt : pwPos s < s.blocks.length * s.blockSize) :
    Inv { s with pwI := 0, pwR := ringNext s s.pwR } ∧
    pwPos { s with pwI := 0, pwR := ringNext s s.pwR } = pwPos s := by
  have hg : ringIdxW s < s.blocks.length := Nat.mod_lt _ h.nbPos
  have hg1 : ringIdxW s + 1 < s.blocks.length := by
    unfold pwPos at hlt
    rw [hpwI] at hlt
    by_contra hcon
    push_neg at hcon
    have hEq : ringIdxW s + 1 = s.blocks.length := by omega
    have : s.blockSize * ringIdxW s + s.blockSize = s.blocks.length * s.blockSize := by
      calc s.blockSize * ringIdxW s + s.blockSize = (ringIdxW s + 1) * s.blockSize := by ring
        _ = s.blocks.length * s.blockSize := by rw [hEq]
    omega
  have hidx : ringIdxW { s with pwI := 0, pwR := ringNext s s.pwR } = ringIdxW s + 1 := by
    unfold ringIdxW ringNext
    exact ringidx_succ_w s.blocks.length s.prR s.pwR h.prR_lt h.pwR_lt hg1
  have hpos : pwPos { s with pwI := 0, pwR := ringNext s s.pwR } = pwPos s := by
    unfold pwPos
    rw [hidx]
    simp only
    rw [hpwI]
    ring
  refine ⟨⟨h.uniform, h.bsPos, h.prR_lt, by simpa [ringNext] using Nat.mod_lt _ h.nbPos,
    h.prI_lt, by simp [h.bsPos.le], ?_, ?_, ?_, h.maxCap_eq, h.empty_prI⟩, hpos⟩
  · rw [hpos]
    exact h.left_eq
  · rw [hpos]
    exact h.prI_le
  · exact h.cap_eq


theorem writeLoop_spec_lt (p : List Nat) : ∀ (fuel : Nat) (s : Buffer) (offset : Nat),
    Inv s → offset ≤ p.length → ((p.length - offset : Nat) : Int) ≤ s.cap →
    p.length - offset + 1 ≤ fuel → s.pwI < s.blockSize →
    ∃ s', writeLoop p fuel s offset = some s' ∧ Inv s' ∧
      contents s' = contents s ++ p.drop offset ∧
      s'.left = s.left + ((p.length - offset : Nat) : Int) ∧
      s'.cap = s.cap - ((p.length - offset : Nat) : Int) ∧
      s'.blockSize = s.blockSize ∧ s'.maxCap = s.maxCap
  | 0, s, offset, _, _, _, hfuel, _ => by omega
  | fuel + 1, s, offset, h, hoff, hcap, hfuel, hpw => by
    rw [writeLoop]
    simp only
    set cnt := min ((ringBytes s s.pwR).length - s.pwI) (p.length - offset) with hcntdef
    have hblklen : (ringBytes s s.pwR).length = s.blockSize := ringBytes_len h.uniform h.pwR_lt
    have hcnt1 : cnt ≤ s.blockSize - s.pwI := by
      rw [hcntdef, hblklen]
      exact min_le_left _ _
    have hcnt2 : cnt ≤ p.length - offset := min_le_right _ _
    have hpwile := h.pwI_le
    have hchlen : ((p.drop offset).take cnt).length = cnt := by
      simp only [List.length_take, List.length_drop]
      omega
    have hln := h.left_nonneg
    have hcapval : s.cap = ((s.blocks.length * s.blockSize : Nat) : Int) - (pwPos s : Int) := by
      rw [h.cap_eq, h.left_eq, h.maxCap_eq]
      push_cast
      ring
    have hple : pwPos s + cnt ≤ s.blocks.length * s.blockSize := by omega
    set M : Buffer := { s with
      blocks := s.blocks.set s.pwR (spliceAt (ringBytes s s.pwR) s.pwI ((p.drop offset).take cnt))
      pwI := s.pwI + cnt, cap := s.cap - (cnt : Int), left := s.left + (cnt : Int) } with hMdef
    have hflatM : flat M = spliceAt (flat s) (pwPos s) ((p.drop offset).take cnt) := by
      rw [hMdef]
      exact flat_write_chunk h _ (by omega)
    have hNM : M.blocks.length = s.blocks.length := by
      rw [hMdef]
      simp
    have hgM : ringIdxW M = ringIdxW s := by
      unfold ringIdxW
      rw [hNM, hMdef]
    have hposM : pwPos M = pwPos s + cnt := by
      unfold pwPos
      rw [hgM, hMdef]
      simp only
      ring
    have hcontM : contents M = contents s ++ (p.drop offset).take cnt := by
      unfold contents
      rw [hflatM, hMdef]
      simp only
      rw [show (s.left + (cnt : Int)).toNat = s.left.toNat + ((p.drop offset).take cnt).length
        by rw [hchlen]; omega]
      exact contents_spliceAt_pw h _ (by rw [hchlen]; exact hple)
    have hMuniform : ∀ b ∈ M.blocks, b.length = M.blockSize := by
      rw [hMdef]
      simp only
      intro b hb'
      rcases List.mem_or_eq_of_mem_set hb' with hmem | rfl
      · exact h.uniform _ hmem
      · rw [length_spliceAt (by rw [hchlen, hblklen]; omega)]
        exact hblklen
    have hMinv : Inv M := by
      refine ⟨hMuniform, by rw [hMdef]; exact h.bsPos, by rw [hNM, hMdef]; exact h.prR_lt,
        by rw [hNM, hMdef]; exact h.pwR_lt, by rw [hMdef]; exact h.prI_lt, ?_, ?_, ?_, ?_, ?_, ?_⟩
      · rw [hMdef]
        simp only
        omega
      · rw [hposM, hMdef]
        have := h.left_eq
        simp only
        push_cast
        omega
      · rw [hposM, hMdef]
        have := h.prI_le
        simp only
        omega
      · rw [hMdef]
        have := h.cap_eq
        simp only
        omega
      · rw [hNM, hMdef]
        exact h.maxCap_eq
      · rw [hMdef]
        simp only
        have := h.empty_prI
        intro hz
        have hc0 : s.left = 0 ∧ cnt = 0 := by omega
        exact this hc0.1
    by_cases hdone : p.length = offset + cnt
    · rw [if_pos hdone]
      refine ⟨M, rfl, hMinv, ?_, ?_, ?_, by rw [hMdef], by rw [hMdef]⟩
      · rw [hcontM]
        congr 1
        rw [show cnt = p.length - offset by omega]
        exact List.take_of_length_le (by simp)
      · rw [hMdef]
        simp only
        congr 1
        omega
      · rw [hMdef]
        simp only
        congr 1
        omega
    · rw [if_neg hdone]
      have hcntbs : cnt = s.blockSize - s.pwI := by
        rcases le_or_lt (s.blockSize - s.pwI) (p.length - offset) with hle | hlt
        · rw [hcntdef, hblklen]
          exact Nat.min_eq_left hle
        · exfalso
          have : cnt = p.length - offset := by
            rw [hcntdef, hblklen]
            exact Nat.min_eq_right hlt.le
          omega
      have hcnt0 : 1 ≤ cnt := by omega
      have hMpwI : M.pwI = M.blockSize := by
        rw [hMdef]
        simp only
        omega
      rw [if_pos hMpwI]
      have hMcapval : M.cap = ((M.blocks.length * M.blockSize : Nat) : Int) - (pwPos M : Int) := by
        rw [hMinv.cap_eq, hMinv.left_eq, hMinv.maxCap_eq]
        push_cast
        ring
      have hlt2 : pwPos M < M.blocks.length * M.blockSize := by
        have hMcap : 1 ≤ M.cap := by
          rw [hMdef]
          simp only
          omega
        omega
      obtain ⟨hWinv, hWpos⟩ := wrap_pw hMinv hMpwI hlt2
      set W : Buffer := { M with pwI := 0, pwR := ringNext M M.pwR } with hWdef
      have hWcont : contents W = contents M := rfl
      have hWfields : W.left = M.left ∧ W.cap = M.cap ∧ W.blockSize = M.blockSize ∧
          W.maxCap = M.maxCap := by
        rw [hWdef]
        exact ⟨rfl, rfl, rfl, rfl⟩
      obtain ⟨s', hloop, hinv', hcont', hleft', hcap', hbs', hmax'⟩ :=
        writeLoop_spec_lt p fuel W (offset + cnt) hWinv (by omega)
          (by rw [hWfields.2.1, hMdef]
              simp only
              omega)
          (by omega)
          (by rw [hWdef, hMdef]
              simp only
              exact h.bsPos)
      refine ⟨s', hloop, hinv', ?_, ?_, ?_, ?_, ?_⟩
      · rw [hcont', hWcont, hcontM, List.append_assoc]
        congr 1
        rw [← List.drop_drop, List.take_append_drop]
      · rw [hleft', hWfields.1, hMdef]
        simp only
        omega
      · rw [hcap', hWfields.2.1, hMdef]
        simp only
        omega
      · rw [hbs', hWfields.2.2.1, hMdef]
      · rw [hmax', hWfields.2.2.2, hMdef]


/-- Effect of splicing a run of fresh blocks right after position `r` on the
rotation that starts at `p` (with the start index shifted past the insertion
when needed): the rotated list gains `fr` right after the rotated position of
`r`. -/
theorem rot_insert {α : Type} (L : List α) (p r : Nat) (fr : List α) (hp : p < L.length)
    (hr : r < L.length) :
    (L.take (r + 1) ++ fr ++ L.drop (r + 1)).drop (if r < p then p + fr.length else p)
      ++ (L.take (r + 1) ++ fr ++ L.drop (r + 1)).take (if r < p then p + fr.length else p)
    = (L.drop p ++ L.take p).take ((r + L.length - p) % L.length + 1) ++ fr
      ++ (L.drop p ++ L.take p).drop ((r + L.length - p) % L.length + 1) := by
  have htk : (L.take (r + 1)).length = r + 1 := by simp; omega
  rcases le_or_lt p r with hpr | hpr
  · rw [if_neg (by omega)]
    have hidx : (r + L.length - p) % L.length = r - p := by
      rw [show r + L.length - p = (r - p) + L.length by omega, Nat.add_mod_right,
        Nat.mod_eq_of_lt (by omega)]
    rw [hidx, List.append_assoc]
    have e1 : (L.take (r + 1) ++ (fr ++ L.drop (r + 1))).drop p
        = (L.take (r + 1)).drop p ++ (fr ++ L.drop (r + 1)) := by
      rw [List.drop_append_eq_append_drop, htk, show p - (r + 1) = 0 by omega, List.drop_zero]
    have e2 : (L.take (r + 1) ++ (fr ++ L.drop (r + 1))).take p = L.take p := by
      rw [List.take_append_of_le_length (by omega), List.take_take,
        Nat.min_eq_left (by omega)]
    rw [e1, e2]
    have e3 : (L.drop p ++ L.take p).take (r - p + 1) = (L.take (r + 1)).drop p := by
      rw [List.take_append_of_le_length (by simp; omega), List.drop_take]
      congr 1
      omega
    have e4 : (L.drop p ++ L.take p).drop (r - p + 1) = L.drop (r + 1) ++ L.take p := by
      rw [List.drop_append_of_le_length (by simp; omega), List.drop_drop]
      congr 2
      omega
    rw [e3, e4]
    simp [List.append_assoc]
  · rw [if_pos hpr]
    have hidx : (r + L.length - p) % L.length = r + L.length - p :=
      Nat.mod_eq_of_lt (by omega)
    rw [hidx, List.append_assoc]
    have e1 : (L.take (r + 1) ++ (fr ++ L.drop (r + 1))).drop (p + fr.length)
        = L.drop p := by
      have q1 : (L.take (r + 1)).length ≤ p + fr.length := by rw [htk]; omega
      have q2 : fr.length ≤ p + fr.length - (L.take (r + 1)).length := by rw [htk]; omega
      rw [List.drop_append_eq_append_drop, List.drop_of_length_le q1, List.nil_append,
        List.drop_append_eq_append_drop, List.drop_of_length_le q2, List.nil_append,
        List.drop_drop, htk]
      congr 1
      omega
    have e2 : (L.take (r + 1) ++ (fr ++ L.drop (r + 1))).take (p + fr.length)
        = L.take (r + 1) ++ (fr ++ (L.drop (r + 1)).take (p - (r + 1))) := by
      have q1 : (L.take (r + 1)).length ≤ p + fr.length := by rw [htk]; omega
      have q2 : fr.length ≤ p + fr.length - (L.take (r + 1)).length := by rw [htk]; omega
      rw [List.take_append_eq_append_take, List.take_of_length_le q1,
        List.take_append_eq_append_take, List.take_of_length_le q2, htk]
      have q3 : p + fr.length - (r + 1) - fr.length = p - (r + 1) := by omega
      rw [q3]
    rw [e1, e2]
    have e3 : (L.drop p ++ L.take p).take (r + L.length - p + 1)
        = L.drop p ++ L.take (r + 1) := by
      have q1 : (L.drop p).length ≤ r + L.length - p + 1 := by
        rw [List.length_drop]
        omega
      rw [List.take_append_eq_append_take, List.take_of_length_le q1, List.take_take]
      have q2 : min (r + L.length - p + 1 - (L.drop p).length) p = r + 1 := by
        rw [List.length_drop]
        omega
      rw [q2]
    have e4 : (L.drop p ++ L.take p).drop (r + L.length - p + 1)
        = (L.drop (r + 1)).take (p - (r + 1)) := by
      have q1 : (L.drop p).length ≤ r + L.length - p + 1 := by
        rw [List.length_drop]
        omega
      rw [List.drop_append_eq_append_drop, List.drop_of_length_le q1, List.nil_append,
        List.drop_take]
      have q2 : p - (r + L.length - p + 1 - (L.drop p).length) = p - (r + 1) := by
        rw [List.length_drop]
        omega
      have q3 : r + L.length - p + 1 - (L.drop p).length = r + 1 := by
        rw [List.length_drop]
        omega
      rw [q3]
    rw [e3, e4]
    simp [List.append_assoc]


theorem rot_insert' {α : Type} (L : List α) (p r : Nat) (fr : List α) (m : Nat)
    (hm : fr.length = m) (hp : p < L.length) (hr : r < L.length) :
    (L.take (r + 1) ++ fr ++ L.drop (r + 1)).drop (if r < p then p + m else p)
      ++ (L.take (r + 1) ++ fr ++ L.drop (r + 1)).take (if r < p then p + m else p)
    = (L.drop p ++ L.take p).take ((r + L.length - p) % L.length + 1) ++ fr
      ++ (L.drop p ++ L.take p).drop ((r + L.length - p) % L.length + 1) := by
  subst hm
  exact rot_insert L p r fr hp hr

theorem take_drop_of_take_eq {α : Type} {X Y : List α} {c a b : Nat}
    (h : X.take c = Y.take c) (hab : a + b ≤ c) :
    (X.drop a).take b = (Y.drop a).take b := by
  rw [List.take_drop, List.take_drop]
  rw [show a + b = min (a + b) c by omega, ← List.take_take, h, List.take_take]

theorem grow_ringIdxW {s : Buffer} (h : Inv s) (n : Int) :
    ringIdxW (grow s n) = ringIdxW s := by
  have hN := h.nbPos
  have hpr := h.prR_lt
  have hpw := h.pwR_lt
  set m := n.toNat / s.blockSize + 1 with hm
  have hB : (grow s n).blocks.length = s.blocks.length + m := by
    simp only [grow, List.length_append, List.length_take, List.length_drop,
      List.length_replicate, ← hm]
    omega
  have hpw2 : (grow s n).pwR = s.pwR := rfl
  have hpr2 : (grow s n).prR = if s.pwR < s.prR then s.prR + m else s.prR := by
    simp only [grow]
  clear_value m
  unfold ringIdxW
  rw [hB, hpw2, hpr2]
  rcases lt_or_le s.pwR s.prR with hc | hc
  · rw [if_pos hc]
    have e1 : s.pwR + (s.blocks.length + m) - (s.prR + m)
        = s.pwR + s.blocks.length - s.prR := by omega
    have l0 : s.pwR + s.blocks.length - s.prR < s.blocks.length + m := by omega
    have l1 : s.pwR + s.blocks.length - s.prR < s.blocks.length := by omega
    rw [e1, Nat.mod_eq_of_lt l0, Nat.mod_eq_of_lt l1]
  · rw [if_neg (not_lt.2 hc)]
    have e2 : s.pwR + (s.blocks.length + m) - s.prR
        = (s.pwR - s.prR) + (s.blocks.length + m) := by omega
    have e3 : s.pwR + s.blocks.length - s.prR = (s.pwR - s.prR) + s.blocks.length := by
      omega
    have l2 : s.pwR - s.prR < s.blocks.length + m := by omega
    have l3 : s.pwR - s.prR < s.blocks.length := by omega
    rw [e2, e3, Nat.add_mod_right, Nat.add_mod_right, Nat.mod_eq_of_lt l2,
      Nat.mod_eq_of_lt l3]

theorem grow_flat {s : Buffer} (h : Inv s) (n : Int) :
    flat (grow s n)
      = (flat s).take ((ringIdxW s + 1) * s.blockSize)
        ++ (List.replicate (n.toNat / s.blockSize + 1)
              (List.replicate s.blockSize 0)).flatten
        ++ (flat s).drop ((ringIdxW s + 1) * s.blockSize) := by
  have hins := rot_insert' s.blocks s.prR s.pwR
    (List.replicate (n.toNat / s.blockSize + 1) (List.replicate s.blockSize 0))
    (n.toNat / s.blockSize + 1) (List.length_replicate _ _) h.prR_lt h.pwR_lt
  show ((s.blocks.take (s.pwR + 1)
      ++ List.replicate (n.toNat / s.blockSize + 1) (List.replicate s.blockSize 0)
      ++ s.blocks.drop (s.pwR + 1)).drop
        (if s.pwR < s.prR then s.prR + (n.toNat / s.blockSize + 1) else s.prR)
    ++ (s.blocks.take (s.pwR + 1)
      ++ List.replicate (n.toNat / s.blockSize + 1) (List.replicate s.blockSize 0)
      ++ s.blocks.drop (s.pwR + 1)).take
        (if s.pwR < s.prR then s.prR + (n.toNat / s.blockSize + 1) else s.prR)).flatten = _
  rw [hins]
  rw [List.flatten_append, List.flatten_append]
  have hg : ringIdxW s + 1 ≤ (s.blocks.drop s.prR ++ s.blocks.take s.prR).length := by
    rw [rot_length h.prR_lt.le]
    exact Nat.mod_lt _ h.nbPos
  rw [flatten_take_uniform _ (uniform_rot h.uniform), flatten_drop_uniform _ (uniform_rot h.uniform)]
  rfl

theorem grow_spec {s : Buffer} (h : Inv s) (n : Int) :
    Inv (grow s n) ∧ contents (grow s n) = contents s ∧
    pwPos (grow s n) = pwPos s ∧
    (grow s n).blocks.length = s.blocks.length + (n.toNat / s.blockSize + 1) ∧
    (grow s n).cap = s.cap + (((n.toNat / s.blockSize + 1) * s.blockSize : Nat) : Int) ∧
    (grow s n).maxCap = s.maxCap + (((n.toNat / s.blockSize + 1) * s.blockSize : Nat) : Int) ∧
    (grow s n).left = s.left ∧ (grow s n).blockSize = s.blockSize ∧ (grow s n).prI = s.prI := by
  set m := n.toNat / s.blockSize + 1 with hm
  have hNlen : (grow s n).blocks.length = s.blocks.length + m := by
    simp only [grow, List.length_append, List.length_take, List.length_drop,
      List.length_replicate, ← hm]
    have := h.pwR_lt
    omega
  have hgidx : ringIdxW (grow s n) = ringIdxW s := grow_ringIdxW h n
  have hpos : pwPos (grow s n) = pwPos s := by
    unfold pwPos
    rw [hgidx]
    simp [grow]
  have hcap : (grow s n).cap = s.cap + ((m * s.blockSize : Nat) : Int) := by
    simp [grow, ← hm]
  have hmax : (grow s n).maxCap = s.maxCap + ((m * s.blockSize : Nat) : Int) := by
    simp [grow, ← hm]
  clear_value m
  have hcont : contents (grow s n) = contents s := by
    unfold contents
    have hXY : (flat (grow s n)).take ((ringIdxW s + 1) * s.blockSize)
        = (flat s).take ((ringIdxW s + 1) * s.blockSize) := by
      rw [grow_flat h n]
      have hc : (ringIdxW s + 1) * s.blockSize ≤ (flat s).length := by
        rw [flat_length h.uniform h.prR_lt.le]
        exact Nat.mul_le_mul_right _ (Nat.mod_lt _ h.nbPos)
      have w1 : (ringIdxW s + 1) * s.blockSize
          ≤ ((flat s).take ((ringIdxW s + 1) * s.blockSize)
            ++ (List.replicate (n.toNat / s.blockSize + 1)
                  (List.replicate s.blockSize 0)).flatten).length := by
        simp only [List.length_append, List.length_take]
        omega
      have w2 : (ringIdxW s + 1) * s.blockSize
          ≤ ((flat s).take ((ringIdxW s + 1) * s.blockSize)).length := by
        simp only [List.length_take]
        omega
      rw [List.take_append_of_le_length w1, List.take_append_of_le_length w2,
        List.take_take, Nat.min_self]
    have hbound : s.prI + s.left.toNat ≤ (ringIdxW s + 1) * s.blockSize := by
      have := h.left_toNat
      have := h.prI_le
      have : s.prI + s.left.toNat = pwPos s := by omega
      rw [this]
      unfold pwPos
      have := h.pwI_le
      have h2 : s.blockSize * ringIdxW s + s.blockSize = (ringIdxW s + 1) * s.blockSize := by
        ring
      omega
    have := take_drop_of_take_eq hXY hbound
    rw [show (grow s n).prI = s.prI from by simp [grow],
      show (grow s n).left = s.left from by simp [grow]]
    exact this
  refine ⟨?_, hcont, hpos, hNlen, hcap, hmax, by simp [grow], by simp [grow], by simp [grow]⟩
  refine ⟨?_, by simpa [grow] using h.bsPos, ?_, ?_, by simpa [grow] using h.prI_lt,
    by simpa [grow] using h.pwI_le, ?_, ?_, ?_, ?_, ?_⟩
  · intro b hb
    simp only [grow, List.mem_append] at hb
    rcases hb with (hb | hb) | hb
    · simpa [grow] using h.uniform _ (List.mem_of_mem_take hb)
    · rcases List.eq_of_mem_replicate hb with rfl
      simp [grow]
    · simpa [grow] using h.uniform _ (List.mem_of_mem_drop hb)
  · rw [hNlen]
    simp only [grow]
    split
    · have := h.prR_lt
      omega
    · have := h.prR_lt
      omega
  · rw [hNlen]
    simp only [grow]
    have := h.pwR_lt
    omega
  · rw [hpos, show (grow s n).left = s.left from by simp [grow],
      show (grow s n).prI = s.prI from by simp [grow]]
    exact h.left_eq
  · rw [hpos, show (grow s n).prI = s.prI from by simp [grow]]
    exact h.prI_le
  · rw [hcap, hmax, show (grow s n).left = s.left from by simp [grow],
      show (grow s n).prI = s.prI from by simp [grow], h.cap_eq]
    ring
  · rw [hmax, hNlen, h.maxCap_eq, show (grow s n).blockSize = s.blockSize from by simp [grow]]
    push_cast
    ring
  · rw [show (grow s n).left = s.left from by simp [grow],
      show (grow s n).prI = s.prI from by simp [grow]]
    exact h.empty_prI


theorem contents_reset (s : Buffer) : contents (Reset s) = [] := by
  unfold contents Reset
  simp

theorem Inv_Reset {s : Buffer} (hu : ∀ b ∈ s.blocks, b.length = s.blockSize)
    (hb : 0 < s.blockSize) (hw : s.pwR < s.blocks.length)
    (hmx : s.maxCap = ((s.blocks.length * s.blockSize : Nat) : Int)) : Inv (Reset s) := by
  have hidx : ringIdxW (Reset s) = 0 := by
    unfold ringIdxW Reset
    simp only
    rw [show s.pwR + s.blocks.length - s.pwR = s.blocks.length by omega, Nat.mod_self]
  have hpos : pwPos (Reset s) = 0 := by
    unfold pwPos
    rw [hidx]
    simp [Reset]
  refine ⟨hu, hb, hw, hw, hb, Nat.zero_le _, ?_, ?_, ?_, hmx, fun _ => rfl⟩
  · show (0 : Int) = ((pwPos (Reset s) : Nat) : Int) - ((0 : Nat) : Int)
    rw [hpos]
    simp
  · show (0 : Nat) ≤ pwPos (Reset s)
    exact Nat.zero_le _
  · show s.maxCap = s.maxCap - (0 : Int) - ((0 : Nat) : Int)
    simp

theorem Inv_New (size₀ n₀ : Nat) : Inv (New size₀ n₀) := by
  unfold New
  simp only
  apply Inv_Reset
  · intro b hb
    rcases List.eq_of_mem_replicate hb with rfl
    simp
  · simp only
    split <;> omega
  · simp only [List.length_replicate]
    split <;> omega
  · simp only [List.length_replicate]
    push_cast
    ring

theorem contents_New (size₀ n₀ : Nat) : contents (New size₀ n₀) = [] := by
  unfold contents New
  simp [Reset]

theorem writeLoop_spec (p : List Nat) (fuel : Nat) (s : Buffer) (offset : Nat)
    (h : Inv s) (hoff : offset ≤ p.length)
    (hcap : ((p.length - offset : Nat) : Int) ≤ s.cap)
    (hfuel : p.length - offset + 2 ≤ fuel) :
    ∃ s', writeLoop p fuel s offset = some s' ∧ Inv s' ∧
      contents s' = contents s ++ p.drop offset ∧
      s'.left = s.left + ((p.length - offset : Nat) : Int) ∧
      s'.cap = s.cap - ((p.length - offset : Nat) : Int) ∧
      s'.blockSize = s.blockSize ∧ s'.maxCap = s.maxCap := by
  rcases lt_or_eq_of_le h.pwI_le with hlt | heq
  · exact writeLoop_spec_lt p fuel s offset h hoff hcap (by omega) hlt
  · obtain ⟨f, rfl⟩ : ∃ f, fuel = f + 1 := ⟨fuel - 1, by omega⟩
    rw [writeLoop]
    simp only
    have hblklen : (ringBytes s s.pwR).length = s.blockSize :=
      ringBytes_len h.uniform h.pwR_lt
    have hcnt0 : min ((ringBytes s s.pwR).length - s.pwI) (p.length - offset) = 0 := by
      rw [hblklen, heq]
      simp
    rw [hcnt0]
    simp only [List.take_zero, spliceAt_nil, set_ringBytes_self h.pwR_lt, Nat.add_zero,
      Nat.cast_zero, add_zero, sub_zero]
    by_cases hend : p.length = offset
    · rw [if_pos hend]
      refine ⟨s, rfl, h, ?_, ?_, ?_, rfl, rfl⟩
      · rw [← hend, List.drop_length, List.append_nil]
      · rw [show p.length - offset = 0 from by omega]
        simp
      · rw [show p.length - offset = 0 from by omega]
        simp
    · rw [if_neg hend, if_pos heq]
      have hrem : 1 ≤ p.length - offset := by omega
      have hcapval : s.cap
          = ((s.blocks.length * s.blockSize : Nat) : Int) - (pwPos s : Int) := by
        rw [h.cap_eq, h.left_eq, h.maxCap_eq]
        push_cast
        ring
      have hlt2 : pwPos s < s.blocks.length * s.blockSize := by
        have h1 : (1 : Int) ≤ ((p.length - offset : Nat) : Int) := by exact_mod_cast hrem
        have h2 := le_trans h1 hcap
        rw [hcapval] at h2
        omega
      obtain ⟨hWinv, hWpos⟩ := wrap_pw h heq hlt2
      obtain ⟨s', hwl, hinv', hcont', hleft', hcap', hbs', hmx'⟩ :=
        writeLoop_spec_lt p f { s with pwI := 0, pwR := ringNext s s.pwR } offset hWinv
          hoff hcap (by omega) h.bsPos
      exact ⟨s', hwl, hinv', hcont', hleft', hcap', hbs', hmx'⟩

theorem Write_spec {s : Buffer} (h : Inv s) (p : List Nat) :
    ∃ s', Write s p = some (p.length, s') ∧ Inv s' ∧
      contents s' = contents s ++ p ∧
      s'.left = s.left + (p.length : Int) ∧
      s'.blockSize = s.blockSize := by
  unfold Write
  simp only
  by_cases hg : s.cap < (p.length : Int)
  · rw [if_pos hg]
    obtain ⟨hGinv, hGcont, hGpos, hGlen, hGcap, hGmax, hGleft, hGbs, hGprI⟩ :=
      grow_spec h ((p.length : Int) - s.cap)
    have hbs := h.bsPos
    have hcap2 : (p.length : Int) ≤ (grow s ((p.length : Int) - s.cap)).cap := by
      rw [hGcap]
      set d := ((p.length : Int) - s.cap).toNat with hd
      have hdpos : ((p.length : Int) - s.cap) = (d : Int) := by
        rw [hd, Int.toNat_of_nonneg (by omega)]
      clear_value d
      have hle : d ≤ (d / s.blockSize + 1) * s.blockSize := by
        have hmod : d % s.blockSize < s.blockSize := Nat.mod_lt _ hbs
        calc d = d / s.blockSize * s.blockSize + d % s.blockSize :=
              (Nat.div_add_mod' d s.blockSize).symm
          _ ≤ (d / s.blockSize + 1) * s.blockSize := by
              rw [Nat.succ_mul]
              omega
      have hle2 : (d : Int) ≤ (((d / s.blockSize + 1) * s.blockSize : Nat) : Int) := by
        exact_mod_cast hle
      have hsum : (p.length : Int) = s.cap + (d : Int) := by omega
      rw [hsum]
      exact add_le_add_left hle2 _
    rw [if_neg (not_lt.2 hcap2)]
    obtain ⟨s', hwl, hinv', hcont', hleft', hcap', hbs', hmx'⟩ :=
      writeLoop_spec p (p.length + 2) (grow s ((p.length : Int) - s.cap)) 0 hGinv
        (Nat.zero_le _) (by rw [Nat.sub_zero]; exact hcap2) (by omega)
    refine ⟨s', ?_, hinv', ?_, ?_, ?_⟩
    · rw [hwl]
      rfl
    · rw [hcont', hGcont, List.drop_zero]
    · rw [hleft', hGleft, Nat.sub_zero]
    · rw [hbs', hGbs]
  · rw [if_neg hg, if_neg hg]
    push_neg at hg
    obtain ⟨s', hwl, hinv', hcont', hleft', hcap', hbs', hmx'⟩ :=
      writeLoop_spec p (p.length + 2) s 0 h (Nat.zero_le _)
        (by rw [Nat.sub_zero]; exact hg) (by omega)
    refine ⟨s', ?_, hinv', ?_, ?_, hbs'⟩
    · rw [hwl]
      rfl
    · rw [hcont', List.drop_zero]
    · rw [hleft', Nat.sub_zero]


theorem ringIdxW_zero_iff {s : Buffer} (hpr : s.prR < s.blocks.length)
    (hpw : s.pwR < s.blocks.length) : ringIdxW s = 0 ↔ s.prR = s.pwR := by
  unfold ringIdxW
  constructor
  · intro h0
    rcases le_or_lt s.prR s.pwR with hc | hc
    · have e1 : s.pwR + s.blocks.length - s.prR = (s.pwR - s.prR) + s.blocks.length := by
        omega
      have e2 : s.pwR - s.prR < s.blocks.length := by omega
      rw [e1, Nat.add_mod_right, Nat.mod_eq_of_lt e2] at h0
      omega
    · have e3 : s.pwR + s.blocks.length - s.prR < s.blocks.length := by omega
      rw [Nat.mod_eq_of_lt e3] at h0
      omega
  · intro he
    rw [he, show s.pwR + s.blocks.length - s.pwR = s.blocks.length by omega, Nat.mod_self]

theorem flat_step_r {s : Buffer} (hu : ∀ b ∈ s.blocks, b.length = s.blockSize)
    (hp : s.prR < s.blocks.length) :
    (s.blocks.drop ((s.prR + 1) % s.blocks.length)
        ++ s.blocks.take ((s.prR + 1) % s.blocks.length)).flatten
      = (flat s).drop s.blockSize ++ (flat s).take s.blockSize := by
  rw [rotate_succ s.blocks s.prR hp, List.flatten_append,
    flatten_drop_uniform 1 (uniform_rot hu), flatten_take_uniform 1 (uniform_rot hu), one_mul]
  rfl

/-- The reader-side block crossing (`stepNext` when it fires): state effect on
the invariant and the readable content. -/
def crossed (s : Buffer) (cnt : Nat) : Buffer :=
  { s with prI := 0
           prR := (s.prR + 1) % s.blocks.length
           left := s.left - (cnt : Int)
           cap := s.cap + (s.blockSize : Int) }

theorem cross_spec {s : Buffer} (h : Inv s) (cnt : Nat)
    (hne : s.prR ≠ s.pwR) (hfull : s.prI + cnt = s.blockSize)
    (hcl : cnt ≤ s.left.toNat) :
    Inv (crossed s cnt) ∧ contents (crossed s cnt) = (contents s).drop cnt ∧
      (crossed s cnt).left = s.left - (cnt : Int) := by
  have hN := h.nbPos
  have hpr := h.prR_lt
  have hpw := h.pwR_lt
  have hbs := h.bsPos
  have hln := h.left_nonneg
  have hlt := h.left_toNat
  have hg1 : 1 ≤ ringIdxW s := by
    rcases Nat.eq_zero_or_pos (ringIdxW s) with h0 | h1
    · exact absurd ((ringIdxW_zero_iff hpr hpw).1 h0) hne
    · exact h1
  have hgu : ringIdxW s < s.blocks.length := h.ringIdxW_lt
  obtain ⟨g, hg⟩ : ∃ g, ringIdxW s = g + 1 := ⟨ringIdxW s - 1, by omega⟩
  have hidx : ringIdxW (crossed s cnt) = g := by
    show (s.pwR + s.blocks.length - (s.prR + 1) % s.blocks.length) % s.blocks.length = g
    rw [ringidx_succ_r s.blocks.length s.prR s.pwR hpr hpw (by rw [← ringIdxW]; omega)]
    rw [← ringIdxW, hg]
    omega
  have hpp : pwPos s = s.blockSize * g + s.blockSize + s.pwI := by
    unfold pwPos
    rw [hg, Nat.mul_succ]
  have hpos : pwPos (crossed s cnt) = pwPos s - s.blockSize := by
    unfold pwPos
    rw [hidx]
    show s.blockSize * g + s.pwI = pwPos s - s.blockSize
    omega
  have hcnt : cnt = s.blockSize - s.prI := by
    have := h.prI_lt
    omega
  have hfl : (flat s).length = s.blocks.length * s.blockSize :=
    flat_length h.uniform hpr.le
  have hflt : flat (crossed s cnt)
      = (flat s).drop s.blockSize ++ (flat s).take s.blockSize :=
    flat_step_r h.uniform hpr
  have hple := h.prI_le
  have hpple := h.pwPos_le
  refine ⟨⟨h.uniform, hbs, Nat.mod_lt _ hN, hpw, hbs, h.pwI_le, ?_, ?_, ?_, h.maxCap_eq,
      fun _ => rfl⟩, ?_, rfl⟩
  · show s.left - (cnt : Int) = ((pwPos (crossed s cnt) : Nat) : Int) - ((0 : Nat) : Int)
    rw [hpos, h.left_eq] at *
    push_cast
    omega
  · show (0 : Nat) ≤ pwPos (crossed s cnt)
    exact Nat.zero_le _
  · show s.cap + (s.blockSize : Int) = s.maxCap - (s.left - (cnt : Int)) - ((0 : Nat) : Int)
    rw [h.cap_eq]
    push_cast
    omega
  · show ((flat (crossed s cnt)).drop 0).take (s.left - (cnt : Int)).toNat
      = (contents s).drop cnt
    rw [List.drop_zero, hflt]
    have htn : (s.left - (cnt : Int)).toNat = s.left.toNat - cnt := by omega
    have hlen2 : s.left.toNat - cnt ≤ ((flat s).drop s.blockSize).length := by
      rw [List.length_drop, hfl]
      have hsplit : s.blocks.length * s.blockSize = (ringIdxW s) * s.blockSize
          + (s.blocks.length - ringIdxW s) * s.blockSize := by
        rw [← Nat.add_mul]
        congr 1
        omega
      have hpwb : pwPos s ≤ s.blocks.length * s.blockSize := hpple
      have hgb : s.blockSize * (g + 1) ≤ s.blocks.length * s.blockSize := by
        rw [Nat.mul_comm s.blockSize (g + 1)]
        exact Nat.mul_le_mul_right _ (by omega)
      omega
    rw [htn, List.take_append_of_le_length hlen2]
    unfold contents
    rw [List.drop_take, List.drop_drop]
    rw [hfull]


set_option maxHeartbeats 2000000 in
theorem readLoop_spec (plen : Nat) : ∀ (fuel : Nat) (s : Buffer) (acc : List Nat) (offset : Nat),
    Inv s → 0 < s.left → offset < plen → plen - offset ≤ fuel →
    ∃ s₂ out, readLoop plen fuel s acc offset = some (s₂, out) ∧
      out = acc ++ (contents s).take (min (plen - offset) s.left.toNat) ∧
      s₂.left = s.left - ((min (plen - offset) s.left.toNat : Nat) : Int) ∧
      contents s₂ = (contents s).drop (min (plen - offset) s.left.toNat) ∧
      (s₂.left ≠ 0 → Inv s₂) ∧
      (∀ b ∈ s₂.blocks, b.length = s₂.blockSize) ∧ s₂.pwR < s₂.blocks.length ∧
      0 < s₂.blockSize ∧ s₂.blockSize = s.blockSize ∧ s₂.maxCap = s.maxCap ∧
      s₂.blocks.length = s.blocks.length
  | 0, s, acc, offset, _, _, hofflt, hfuel => by omega
  | fuel + 1, s, acc, offset, h, hl, hofflt, hfuel => by
    have hbuf : (ringBytes s s.prR).length = s.blockSize := ringBytes_len h.uniform h.prR_lt
    have hbs := h.bsPos
    have hprI := h.prI_lt
    have hpwile := h.pwI_le
    have hln := h.left_nonneg
    have hlt := h.left_toNat
    have hltp : 0 < s.left.toNat := by omega
    have hprle := h.prI_le
    have hflatbuf : ringBytes s s.prR = (flat s).take s.blockSize := by
      have hrb := ringBytes_eq_flat h.uniform h.prR_lt h.prR_lt
      rw [show (s.prR + s.blocks.length - s.prR) % s.blocks.length = 0 by
          rw [show s.prR + s.blocks.length - s.prR = s.blocks.length by omega, Nat.mod_self],
        Nat.zero_mul, List.drop_zero] at hrb
      exact hrb
    have hchunk : ∀ c : Nat, c ≤ s.blockSize - s.prI → c ≤ s.left.toNat →
        List.take c (List.drop s.prI (ringBytes s s.prR)) = (contents s).take c := by
      intro c hcc1 hcc2
      rw [hflatbuf, List.drop_take]
      unfold contents
      rw [List.take_take, List.take_take]
      congr 1
      omega
    rw [readLoop]
    simp only
    by_cases hpq : s.prR = s.pwR
    · rw [if_pos hpq]
      have hg0 : ringIdxW s = 0 := (ringIdxW_zero_iff h.prR_lt h.pwR_lt).2 hpq
      have hpwpos : pwPos s = s.pwI := by
        unfold pwPos
        rw [hg0, Nat.mul_zero, Nat.zero_add]
      have hguard : ¬(s.pwI < s.prI ∨ (ringBytes s s.prR).length < s.pwI) := by
        rw [hbuf]
        push_neg
        exact ⟨by omega, h.pwI_le⟩
      rw [if_neg hguard]
      set cn := min (plen - offset) (s.pwI - s.prI) with hcn
      clear_value cn
      have hc1 : cn ≤ s.pwI - s.prI := by omega
      have hc0 : cn ≤ plen - offset := by omega
      have hccl : cn ≤ s.left.toNat := by omega
      have hcneq : cn = min (plen - offset) s.left.toNat := by omega
      set M := { s with prI := s.prI + cn, left := s.left - (cn : Int) } with hMdef
      have hMleft : M.left = s.left - (cn : Int) := by rw [hMdef]
      have hexit : s.left - (cn : Int) = 0 ∨ offset + cn = plen := by omega
      rw [if_pos hexit]
      have hstepM : stepNext M = M := by
        unfold stepNext
        rw [if_pos (Or.inr (show M.prR = M.pwR from hpq))]
      rw [hstepM]
      refine ⟨M, _, rfl, ?_, ?_, ?_, ?_, h.uniform, h.pwR_lt, hbs, rfl, rfl, rfl⟩
      · rw [← hcneq]
        congr 1
        exact hchunk cn (by omega) hccl
      · rw [← hcneq, hMdef]
      · rw [← hcneq]
        show ((flat s).drop (s.prI + cn)).take (s.left - (cn : Int)).toNat
          = (contents s).drop cn
        have htn : (s.left - (cn : Int)).toNat = s.left.toNat - cn := by omega
        rw [htn]
        unfold contents
        rw [List.drop_take, List.drop_drop]
      · intro hne0
        rw [hMleft] at hne0
        have hcnlt : cn < s.left.toNat := by omega
        refine ⟨h.uniform, hbs, h.prR_lt, h.pwR_lt, ?_, h.pwI_le, ?_, ?_, ?_, h.maxCap_eq, ?_⟩
        · show s.prI + cn < s.blockSize
          omega
        · show s.left - (cn : Int) = ((pwPos M : Nat) : Int) - ((s.prI + cn : Nat) : Int)
          rw [show pwPos M = pwPos s from rfl, h.left_eq]
          push_cast
          omega
        · show s.prI + cn ≤ pwPos M
          rw [show pwPos M = pwPos s from rfl]
          omega
        · show s.cap = s.maxCap - (s.left - (cn : Int)) - ((s.prI + cn : Nat) : Int)
          rw [h.cap_eq]
          push_cast
          ring
        · intro h0
          rw [hMleft] at h0
          exact absurd h0 hne0
    · rw [if_neg hpq]
      have hguard : ¬(s.blockSize < s.prI ∨ (ringBytes s s.prR).length < s.blockSize) := by
        rw [hbuf]
        push_neg
        exact ⟨le_of_lt hprI, le_refl _⟩
      rw [if_neg hguard]
      have hg1 : 1 ≤ ringIdxW s := by
        rcases Nat.eq_zero_or_pos (ringIdxW s) with h0 | h1
        · exact absurd ((ringIdxW_zero_iff h.prR_lt h.pwR_lt).1 h0) hpq
        · exact h1
      have hbound : s.blockSize - s.prI ≤ s.left.toNat := by
        have hmul : s.blockSize * 1 ≤ s.blockSize * ringIdxW s :=
          Nat.mul_le_mul_left _ hg1
        rw [Nat.mul_one] at hmul
        unfold pwPos at hlt
        omega
      set cn := min (plen - offset) (s.blockSize - s.prI) with hcn
      clear_value cn
      have hc1 : cn ≤ s.blockSize - s.prI := by omega
      have hc0 : cn ≤ plen - offset := by omega
      have hcn1 : 1 ≤ cn := by omega
      have hccl : cn ≤ s.left.toNat := by omega
      set M := { s with prI := s.prI + cn, left := s.left - (cn : Int) } with hMdef
      have hMleft : M.left = s.left - (cn : Int) := by rw [hMdef]
      have hMprI : M.prI = s.prI + cn := by rw [hMdef]
      have hMbs : M.blockSize = s.blockSize := by rw [hMdef]
      by_cases hstop : s.left - (cn : Int) = 0 ∨ offset + cn = plen
      · rw [if_pos hstop]
        have hcneq : cn = min (plen - offset) s.left.toNat := by
          rcases hstop with h0 | h0
          · omega
          · omega
        by_cases hfull : s.prI + cn = s.blockSize
        · have hstepM : stepNext M = crossed s cn := by
            unfold stepNext
            rw [if_neg (show ¬(M.prI ≠ M.blockSize ∨ M.prR = M.pwR) by
              push_neg
              exact ⟨by rw [hMprI, hMbs]; exact hfull, hpq⟩)]
            rw [hMdef]
            rfl
          rw [hstepM]
          obtain ⟨hXinv, hXcont, hXleft⟩ := cross_spec h cn hpq hfull hccl
          refine ⟨crossed s cn, _, rfl, ?_, ?_, ?_, fun _ => hXinv, hXinv.uniform,
            hXinv.pwR_lt, hXinv.bsPos, rfl, rfl, rfl⟩
          · rw [← hcneq]
            congr 1
            exact hchunk cn hc1 hccl
          · rw [← hcneq]
            exact hXleft
          · rw [← hcneq]
            exact hXcont
        · have hnl : s.prI + cn < s.blockSize := by omega
          have hstepM : stepNext M = M := by
            unfold stepNext
            rw [if_pos (Or.inl (show M.prI ≠ M.blockSize by rw [hMprI, hMbs]; omega))]
          rw [hstepM]
          refine ⟨M, _, rfl, ?_, ?_, ?_, ?_, h.uniform, h.pwR_lt, hbs, rfl, rfl, rfl⟩
          · rw [← hcneq]
            congr 1
            exact hchunk cn hc1 hccl
          · rw [← hcneq, hMdef]
          · rw [← hcneq]
            show ((flat s).drop (s.prI + cn)).take (s.left - (cn : Int)).toNat
              = (contents s).drop cn
            have htn : (s.left - (cn : Int)).toNat = s.left.toNat - cn := by omega
            rw [htn]
            unfold contents
            rw [List.drop_take, List.drop_drop]
          · intro hne0
            rw [hMleft] at hne0
            refine ⟨h.uniform, hbs, h.prR_lt, h.pwR_lt, ?_, h.pwI_le, ?_, ?_, ?_,
              h.maxCap_eq, ?_⟩
            · show s.prI + cn < s.blockSize
              exact hnl
            · show s.left - (cn : Int) = ((pwPos M : Nat) : Int) - ((s.prI + cn : Nat) : Int)
              rw [show pwPos M = pwPos s from rfl, h.left_eq]
              push_cast
              omega
            · show s.prI + cn ≤ pwPos M
              rw [show pwPos M = pwPos s from rfl]
              omega
            · show s.cap = s.maxCap - (s.left - (cn : Int)) - ((s.prI + cn : Nat) : Int)
              rw [h.cap_eq]
              push_cast
              ring
            · intro h0
              rw [hMleft] at h0
              exact absurd h0 hne0
      · rw [if_neg hstop]
        obtain ⟨hstop1, hstop2⟩ := not_or.1 hstop
        have hcnfull : s.prI + cn = s.blockSize := by omega
        have hsc : stepNextChecked M = some (crossed s cn) := by
          unfold stepNextChecked
          rw [if_neg (show ¬(M.prI ≠ M.blockSize ∨ M.prR = M.pwR) by
            push_neg
            exact ⟨by rw [hMprI, hMbs]; exact hcnfull, hpq⟩)]
          rw [hMdef]
          rfl
        rw [hsc]
        obtain ⟨hXinv, hXcont, hXleft⟩ := cross_spec h cn hpq hcnfull hccl
        have hXl0 : 0 < (crossed s cn).left := by
          rw [hXleft]
          omega
        have hoff2 : offset + cn < plen := by omega
        obtain ⟨s₂, out, hrl, hout, hleft2, hcont2, hinv2, hu2, hpw2, hbsp2, hbs2, hmx2, hN2⟩ :=
          readLoop_spec plen fuel (crossed s cn)
            (acc ++ List.take cn (List.drop s.prI (ringBytes s s.prR)))
            (offset + cn) hXinv hXl0 hoff2 (by omega)
        refine ⟨s₂, out, ?_, ?_, ?_, ?_, hinv2, hu2, hpw2, hbsp2, hbs2, hmx2, hN2⟩
        · show readLoop plen fuel (crossed s cn)
            (acc ++ List.take cn (List.drop s.prI (ringBytes s s.prR))) (offset + cn)
            = some (s₂, out)
          exact hrl
        · rw [hout, hXcont, hXleft]
          have hm2 : min (plen - (offset + cn)) (s.left - (cn : Int)).toNat
              = min (plen - offset) s.left.toNat - cn := by omega
          rw [hm2, hchunk cn hc1 hccl, List.append_assoc, ← List.take_add]
          rw [show cn + (min (plen - offset) s.left.toNat - cn)
              = min (plen - offset) s.left.toNat from by omega]
        · rw [hleft2, hXleft]
          have hm2 : min (plen - (offset + cn)) (s.left - (cn : Int)).toNat
              = min (plen - offset) s.left.toNat - cn := by omega
          rw [hm2]
          omega
        · rw [hcont2, hXcont, hXleft, List.drop_drop]
          have hm2 : min (plen - (offset + cn)) (s.left - (cn : Int)).toNat
              = min (plen - offset) s.left.toNat - cn := by omega
          rw [hm2]
          congr 1
          omega


theorem Read_spec {s : Buffer} (h : Inv s) (plen : Nat) (hp : 0 < plen) (hl : 0 < s.left) :
    ∃ s₂ out, Read s plen = some (min (plen : Int) s.left, none, s₂, out) ∧ Inv s₂ ∧
      out = (contents s).take (min plen s.left.toNat) ∧
      contents s₂ = (contents s).drop (min plen s.left.toNat) ∧
      s₂.left = s.left - ((min plen s.left.toNat : Nat) : Int) ∧
      s₂.blockSize = s.blockSize ∧ s₂.maxCap = s.maxCap ∧
      s₂.blocks.length = s.blocks.length := by
  have hlt := h.left_toNat
  have hln := h.left_nonneg
  have hclen : (contents s).length = s.left.toNat := by
    unfold contents
    rw [List.length_take, List.length_drop]
    have hfl := flat_length h.uniform h.prR_lt.le
    have hpp := h.pwPos_le
    have hpi := h.prI_le
    omega
  unfold Read
  rw [if_neg (by omega : ¬ plen = 0), if_neg (by omega : ¬ s.left = 0)]
  simp only
  obtain ⟨s₂', out, hrl, hout, hleft2, hcont2, hinv2, hu2, hpw2, hbsp2, hbs2, hmx2, hN2⟩ :=
    readLoop_spec plen (2 * plen + 4) s [] 0 h hl hp (by omega)
  rw [Nat.sub_zero] at hout hleft2 hcont2
  rw [List.nil_append] at hout
  rw [hrl]
  simp only [Option.map_some']
  have hnval : (if s.left > (plen : Int) then (plen : Int) else s.left)
      = min (plen : Int) s.left := by
    split <;> omega
  rw [hnval]
  by_cases hz : s₂'.left = 0
  · rw [if_pos hz]
    rw [hleft2] at hz
    have hmine : min plen s.left.toNat = s.left.toNat := by omega
    refine ⟨Reset s₂', out, rfl, ?_, hout, ?_, ?_, ?_, ?_, ?_⟩
    · exact Inv_Reset hu2 hbsp2 hpw2 (by rw [hmx2, hN2, hbs2]; exact h.maxCap_eq)
    · rw [contents_reset]
      symm
      apply List.drop_eq_nil_of_le
      rw [hclen, hmine]
    · show (0 : Int) = s.left - ((min plen s.left.toNat : Nat) : Int)
      omega
    · show s₂'.blockSize = s.blockSize
      exact hbs2
    · show s₂'.maxCap = s.maxCap
      exact hmx2
    · show s₂'.blocks.length = s.blocks.length
      exact hN2
  · rw [if_neg hz]
    exact ⟨s₂', out, rfl, hinv2 hz, hout, hcont2, hleft2, hbs2, hmx2, hN2⟩


/-- C1: from a fresh buffer of any block configuration, `Write(p)` (and
`WriteString` of the same bytes, which is the identical computation) succeeds
fully in one call returning `(len p, nil)` — growing first if the free
capacity is insufficient — and reading back `len p` bytes afterwards
reproduces `p` exactly, including across block boundaries. -/
theorem c1_write_read_roundtrip (size n : Nat) (p : List Nat) :
    ∃ s₁, Write (New size n) p = some (p.length, s₁) ∧
      WriteString (New size n) p = Write (New size n) p ∧
      ∃ s₂ out, Read s₁ p.length = some ((p.length : Int), none, s₂, out) ∧ out = p := by
  obtain ⟨s₁, hw, hinv1, hcont1, hleft1, hbs1⟩ := Write_spec (Inv_New size n) p
  rw [contents_New, List.nil_append] at hcont1
  have hL0 : (New size n).left = 0 := rfl
  rw [hL0] at hleft1
  rcases Nat.eq_zero_or_pos p.length with hp0 | hp
  · have hpnil : p = [] := List.eq_nil_of_length_eq_zero hp0
    subst hpnil
    refine ⟨s₁, hw, rfl, s₁, [], ?_, rfl⟩
    unfold Read
    simp
  · have hl1 : 0 < s₁.left := by
      rw [hleft1]
      omega
    obtain ⟨s₂, out, hr, hinv2, hout, hcont2, hleft2, hbs2, hmx2, hN2⟩ :=
      Read_spec hinv1 p.length hp hl1
    have hltn : s₁.left.toNat = p.length := by omega
    have hminN : min p.length s₁.left.toNat = p.length := by omega
    have hminI : min ((p.length : Nat) : Int) s₁.left = (p.length : Int) := by omega
    rw [hminI] at hr
    refine ⟨s₁, hw, rfl, s₂, out, hr, ?_⟩
    rw [hout, hcont1, hminN, List.take_length]

/-- C8 (corrected): `Read` checks the zero-capacity destination *before* the
empty-buffer test, so `Read` into a zero-capacity destination returns
`(0, nil)` even when `length == 0`; with a non-empty destination an empty
buffer yields `(0, EndOfData)`, and otherwise exactly
`min(length, capacity)` bytes are consumed with no error. `ReadByte` on an
empty buffer reports EndOfData. -/
theorem c8_read_end_of_data (s : Buffer) (plen : Nat) (h : Inv s) :
    Read s 0 = some (0, none, s, []) ∧
    (0 < plen → s.left = 0 → Read s plen = some (0, some GErr.eof, s, [])) ∧
    (0 < plen → 0 < s.left → ∃ s₂ out,
      Read s plen = some (min (plen : Int) s.left, none, s₂, out) ∧
      out = (contents s).take (min plen s.left.toNat) ∧
      s₂.left = s.left - ((min plen s.left.toNat : Nat) : Int)) ∧
    (s.left = 0 → ReadByte s = some (0, some GErr.eof, s)) := by
  refine ⟨?_, ?_, ?_, ?_⟩
  · unfold Read
    rw [if_pos (Eq.refl (0 : Nat))]
  · intro hp hz
    unfold Read
    rw [if_neg (by omega : ¬ plen = 0), if_pos hz]
  · intro hp hl
    obtain ⟨s₂, out, hr, hinv2, hout, hcont2, hleft2, hbs2, hmx2, hN2⟩ :=
      Read_spec h plen hp hl
    exact ⟨s₂, out, hr, hout, hleft2⟩
  · intro hz
    unfold ReadByte
    rw [if_pos hz]

theorem c8_read_end_of_data_witness :
    Read (New 512 1) 7 = some (0, some GErr.eof, New 512 1, []) ∧
    ReadByte (New 512 1) = some (0, some GErr.eof, New 512 1) := by
  have hc := c8_read_end_of_data (New 512 1) 7 (Inv_New 512 1)
  exact ⟨hc.2.1 (by omega) rfl, hc.2.2.2 rfl⟩

/-- C4 (amended): `grow(n)` allocates exactly `n/blockSize + 1` fresh
zero-initialized blocks (one more than `ceil(n / blockSize)` whenever
`blockSize` divides `n`, and the documented count otherwise), splices them
immediately after the write-cursor block, raises `totalCapacity` and
`freeCapacity` each by exactly that many blocks' bytes, and leaves the
readable content unchanged. -/
theorem c4_grow_effects {s : Buffer} (h : Inv s) (n : Int) :
    (grow s n).blocks = s.blocks.take (s.pwR + 1)
      ++ List.replicate (n.toNat / s.blockSize + 1) (List.replicate s.blockSize 0)
      ++ s.blocks.drop (s.pwR + 1) ∧
    (grow s n).blocks.length = s.blocks.length + (n.toNat / s.blockSize + 1) ∧
    (grow s n).maxCap
      = s.maxCap + (((n.toNat / s.blockSize + 1) * s.blockSize : Nat) : Int) ∧
    (grow s n).cap = s.cap + (((n.toNat / s.blockSize + 1) * s.blockSize : Nat) : Int) ∧
    contents (grow s n) = contents s ∧ Inv (grow s n) := by
  obtain ⟨hGinv, hGcont, hGpos, hGlen, hGcap, hGmax, hGleft, hGbs, hGprI⟩ := grow_spec h n
  exact ⟨rfl, hGlen, hGmax, hGcap, hGcont, hGinv⟩

set_option maxRecDepth 100000 in
theorem c4_grow_effects_witness :
    (grow (New 512 1) 700).blocks.length = 3 ∧
    contents (grow (New 512 1) 700) = contents (New 512 1) := by
  have hc := c4_grow_effects (Inv_New 512 1) 700
  refine ⟨?_, hc.2.2.2.2.1⟩
  rw [hc.2.1]
  decide


theorem contents_length {s : Buffer} (h : Inv s) : (contents s).length = s.left.toNat := by
  unfold contents
  rw [List.length_take, List.length_drop]
  have hfl := flat_length h.uniform h.prR_lt.le
  have hpp := h.pwPos_le
  have hpi := h.prI_le
  have hlt := h.left_toNat
  omega

theorem mod_succ_hop (a N : Nat) (_hN : 0 < N) : (a % N + 1) % N = (a + 1) % N := by
  rw [show a + 1 = a % N + 1 + N * (a / N) from by
      have := Nat.div_add_mod a N
      omega]
  rw [Nat.add_mul_mod_self_left]

theorem ringidx_hops (N a b : Nat) (ha : a < N) (hb : b < N) :
    ∀ k, k ≤ (b + N - a) % N → (b + N - (a + k) % N) % N = (b + N - a) % N - k
  | 0, _ => by
    rw [Nat.add_zero, Nat.mod_eq_of_lt ha, Nat.sub_zero]
  | k + 1, hk => by
    have ih := ringidx_hops N a b ha hb k (by omega)
    have hN : 0 < N := by omega
    rw [show a + (k + 1) = a + k + 1 from rfl, ← mod_succ_hop (a + k) N hN]
    rw [ringidx_succ_r N ((a + k) % N) b (Nat.mod_lt _ hN) hb (by rw [ih]; omega)]
    rw [ih]
    omega

theorem rot_step {L : List (List Nat)} {bs : Nat} (hu : ∀ b ∈ L, b.length = bs)
    (q : Nat) (hq : q < L.length) :
    (L.drop ((q + 1) % L.length) ++ L.take ((q + 1) % L.length)).flatten
      = ((L.drop q ++ L.take q).flatten).drop bs
        ++ ((L.drop q ++ L.take q).flatten).take bs := by
  have hu2 : ∀ b ∈ L.drop q ++ L.take q, b.length = bs := by
    intro b hb
    rcases List.mem_append.1 hb with hbm | hbm
    · exact hu _ (List.mem_of_mem_drop hbm)
    · exact hu _ (List.mem_of_mem_take hbm)
  rw [rotate_succ L q hq, List.flatten_append, flatten_drop_uniform 1 hu2,
    flatten_take_uniform 1 hu2, one_mul]

theorem flat_hops {s : Buffer} (hu : ∀ b ∈ s.blocks, b.length = s.blockSize)
    (hpr : s.prR < s.blocks.length) :
    ∀ k, k ≤ s.blocks.length →
    (s.blocks.drop ((s.prR + k) % s.blocks.length)
        ++ s.blocks.take ((s.prR + k) % s.blocks.length)).flatten
      = (flat s).drop (k * s.blockSize) ++ (flat s).take (k * s.blockSize)
  | 0, _ => by
    rw [Nat.add_zero, Nat.mod_eq_of_lt hpr, Nat.zero_mul, List.drop_zero, List.take_zero,
      List.append_nil]
    rfl
  | k + 1, hk => by
    have hN : 0 < s.blocks.length := by omega
    have ih := flat_hops hu hpr k (by omega)
    have hq : (s.prR + k) % s.blocks.length < s.blocks.length := Nat.mod_lt _ hN
    have hXlen : (flat s).length = s.blocks.length * s.blockSize :=
      flat_length hu (by omega)
    have hmul : (k + 1) * s.blockSize ≤ s.blocks.length * s.blockSize :=
      Nat.mul_le_mul_right _ hk
    rw [Nat.succ_mul] at hmul
    have h1 : s.blockSize ≤ ((flat s).drop (k * s.blockSize)).length := by
      rw [List.length_drop]
      omega
    rw [show s.prR + (k + 1) = s.prR + k + 1 from rfl, ← mod_succ_hop (s.prR + k) _ hN,
      rot_step hu ((s.prR + k) % s.blocks.length) hq, ih,
      List.drop_append_of_le_length h1, List.take_append_of_le_length h1,
      List.drop_drop, Nat.succ_mul, List.take_add, List.append_assoc]

/-- The read cursor advanced by `d` bytes: `k` whole-block hops (each
reclaiming a block into `cap`) landing at intra-block offset `i`. -/
def advanced (s : Buffer) (k i d : Nat) : Buffer :=
  { s with prR := (s.prR + k) % s.blocks.length
           prI := i
           left := s.left - (d : Int)
           cap := s.cap + ((k * s.blockSize : Nat) : Int) }

theorem advance_spec {s : Buffer} (h : Inv s) (k i d : Nat)
    (hki : k * s.blockSize + i = s.prI + d)
    (hd : d < s.left.toNat) (hi : i < s.blockSize) :
    Inv (advanced s k i d) ∧ contents (advanced s k i d) = (contents s).drop d ∧
      (advanced s k i d).left = s.left - (d : Int) := by
  have hN := h.nbPos
  have hpr := h.prR_lt
  have hpw := h.pwR_lt
  have hbs := h.bsPos
  have hln := h.left_nonneg
  have hlt := h.left_toNat
  have hpple := h.pwPos_le
  have hgu := h.ringIdxW_lt
  have hprle := h.prI_le
  have hpwile := h.pwI_le
  have hpp : pwPos s = s.blockSize * ringIdxW s + s.pwI := rfl
  have hkbs : k * s.blockSize = s.blockSize * k := Nat.mul_comm _ _
  have hkg : k ≤ ringIdxW s := by
    by_contra hcon
    push_neg at hcon
    have h1 : s.blockSize * (ringIdxW s + 1) ≤ s.blockSize * k :=
      Nat.mul_le_mul_left _ (by omega)
    rw [Nat.mul_succ] at h1
    omega
  obtain ⟨g', hg'⟩ : ∃ g', ringIdxW s = k + g' := ⟨ringIdxW s - k, by omega⟩
  have hsub : ringIdxW s - k = g' := by omega
  have hexp : s.blockSize * ringIdxW s = s.blockSize * k + s.blockSize * g' := by
    rw [hg', Nat.mul_add]
  have hexp2 : (k + 1) * s.blockSize ≤ s.blocks.length * s.blockSize :=
    Nat.mul_le_mul_right _ (by omega)
  rw [Nat.succ_mul] at hexp2
  have hidx : ringIdxW (advanced s k i d) = ringIdxW s - k := by
    show (s.pwR + s.blocks.length - (s.prR + k) % s.blocks.length) % s.blocks.length = _
    exact ringidx_hops s.blocks.length s.prR s.pwR hpr hpw k hkg
  have hposA : pwPos (advanced s k i d) = s.blockSize * g' + s.pwI := by
    unfold pwPos
    rw [hidx, hsub]
    rfl
  have hXlen : (flat s).length = s.blocks.length * s.blockSize :=
    flat_length h.uniform hpr.le
  have hflatA : flat (advanced s k i d)
      = (flat s).drop (k * s.blockSize) ++ (flat s).take (k * s.blockSize) :=
    flat_hops h.uniform hpr k (by omega)
  have htn : (s.left - (d : Int)).toNat = s.left.toNat - d := by omega
  have hcontA : contents (advanced s k i d) = (contents s).drop d := by
    show ((flat (advanced s k i d)).drop i).take (s.left - (d : Int)).toNat = _
    rw [hflatA, htn]
    have h1 : i ≤ ((flat s).drop (k * s.blockSize)).length := by
      rw [List.length_drop]
      omega
    rw [List.drop_append_of_le_length h1]
    have h2 : s.left.toNat - d ≤ (((flat s).drop (k * s.blockSize)).drop i).length := by
      rw [List.length_drop, List.length_drop]
      omega
    rw [List.take_append_of_le_length h2, List.drop_drop]
    unfold contents
    rw [List.drop_take, List.drop_drop]
    rw [hki]
  refine ⟨⟨h.uniform, hbs, Nat.mod_lt _ hN, hpw, hi, hpwile, ?_, ?_, ?_, h.maxCap_eq, ?_⟩,
    hcontA, rfl⟩
  · show s.left - (d : Int) = ((pwPos (advanced s k i d) : Nat) : Int) - ((i : Nat) : Int)
    rw [hposA, h.left_eq, hpp]
    push_cast
    omega
  · show i ≤ pwPos (advanced s k i d)
    rw [hposA]
    omega
  · show s.cap + ((k * s.blockSize : Nat) : Int)
      = s.maxCap - (s.left - (d : Int)) - ((i : Nat) : Int)
    rw [h.cap_eq, h.left_eq, hpp]
    push_cast
    omega
  · intro h0
    exfalso
    have h0' : s.left - (d : Int) = 0 := h0
    omega


theorem ringidx_add (N a jp : Nat) (ha : a < N) (hjp : jp < N) :
    ((a + jp) % N + N - a) % N = jp := by
  rcases Nat.lt_or_ge (a + jp) N with hlt | hge
  · rw [Nat.mod_eq_of_lt hlt, show a + jp + N - a = jp + N by omega, Nat.add_mod_right,
      Nat.mod_eq_of_lt hjp]
  · have h2 : a + jp - N < N := by omega
    have hmod : (a + jp) % N = a + jp - N := by
      conv_lhs => rw [show a + jp = a + jp - N + N by omega]
      rw [Nat.add_mod_right, Nat.mod_eq_of_lt h2]
    rw [hmod, show a + jp - N + N - a = jp from by omega, Nat.mod_eq_of_lt hjp]

theorem ringhop_eq_pr {s : Buffer} (h : Inv s) (jp : Nat) (hjp : jp < s.blocks.length) :
    (s.prR + jp) % s.blocks.length = s.prR ↔ jp = 0 := by
  constructor
  · intro he
    have hadd := ringidx_add s.blocks.length s.prR jp h.prR_lt hjp
    rw [he, show s.prR + s.blocks.length - s.prR = s.blocks.length by omega, Nat.mod_self]
      at hadd
    omega
  · intro h0
    rw [h0, Nat.add_zero, Nat.mod_eq_of_lt h.prR_lt]

theorem ringhop_eq_pw {s : Buffer} (h : Inv s) (jp : Nat) (hjp : jp < s.blocks.length) :
    (s.prR + jp) % s.blocks.length = s.pwR ↔ jp = ringIdxW s := by
  constructor
  · intro he
    have hadd := ringidx_add s.blocks.length s.prR jp h.prR_lt hjp
    rw [he] at hadd
    show jp = (s.pwR + s.blocks.length - s.prR) % s.blocks.length
    omega
  · intro hg
    subst hg
    show (s.prR + (s.pwR + s.blocks.length - s.prR) % s.blocks.length) % s.blocks.length
      = s.pwR
    rcases le_or_lt s.prR s.pwR with hc | hc
    · have e1 : s.pwR + s.blocks.length - s.prR = (s.pwR - s.prR) + s.blocks.length := by
        omega
      have e2 : s.pwR - s.prR < s.blocks.length := by
        have := h.pwR_lt
        omega
      rw [e1, Nat.add_mod_right, Nat.mod_eq_of_lt e2]
      have e3 : s.prR + (s.pwR - s.prR) = s.pwR := by omega
      rw [e3, Nat.mod_eq_of_lt h.pwR_lt]
    · have e4 : s.pwR + s.blocks.length - s.prR < s.blocks.length := by
        have := h.prR_lt
        omega
      rw [Nat.mod_eq_of_lt e4]
      have e5 : s.prR + (s.pwR + s.blocks.length - s.prR) = s.pwR + s.blocks.length := by
        have := h.prR_lt
        omega
      rw [e5, Nat.add_mod_right, Nat.mod_eq_of_lt h.pwR_lt]

theorem ringBytes_at_hop {s : Buffer} (h : Inv s) (jp : Nat) (hjp : jp < s.blocks.length) :
    ringBytes s ((s.prR + jp) % s.blocks.length)
      = ((flat s).drop (jp * s.blockSize)).take s.blockSize := by
  have hx := ringBytes_eq_flat h.uniform h.prR_lt
    (Nat.mod_lt _ h.nbPos : (s.prR + jp) % s.blocks.length < s.blocks.length)
  rw [ringidx_add s.blocks.length s.prR jp h.prR_lt hjp] at hx
  exact hx

theorem peek_chunk {s : Buffer} (h : Inv s) (jp e st : Nat)
    (hjplt : jp < s.blocks.length)
    (hf1 : jp * s.blockSize + st = s.prI + (jp * s.blockSize - s.prI))
    (hst : st ≤ e) (he : e ≤ s.blockSize)
    (hf2 : e - st ≤ s.left.toNat - (jp * s.blockSize - s.prI)) :
    ((ringBytes s ((s.prR + jp) % s.blocks.length)).drop st).take (e - st)
      = ((contents s).drop (jp * s.blockSize - s.prI)).take (e - st) := by
  have hXeq : (contents s).drop (jp * s.blockSize - s.prI)
      = ((flat s).drop (s.prI + (jp * s.blockSize - s.prI))).take
          (s.left.toNat - (jp * s.blockSize - s.prI)) := by
    unfold contents
    rw [List.drop_take, List.drop_drop]
  rw [ringBytes_at_hop h jp hjplt, hXeq, List.drop_take, List.drop_drop, List.take_take,
    List.take_take, hf1]
  congr 1
  omega


set_option maxHeartbeats 1000000 in
theorem peekLoop_spec {s : Buffer} (h : Inv s) :
    ∀ (fuel jp : Nat) (total : Int) (list : List (List Nat)),
    ((total ≤ 0 ∧ s.left.toNat ≤ jp * s.blockSize - s.prI) ∨
      (jp ≤ ringIdxW s ∧ total = s.left - ((jp * s.blockSize - s.prI : Nat) : Int))) →
    jp ≤ ringIdxW s + 1 →
    ringIdxW s + 2 - jp ≤ fuel →
    ∃ spans, peekLoop s fuel ((s.prR + jp) % s.blocks.length) total list
        = some (list ++ spans) ∧
      spans.flatten = (contents s).drop (jp * s.blockSize - s.prI)
  | 0, jp, total, list, _, hjp2, hfuel => by omega
  | fuel + 1, jp, total, list, hyp, hjp2, hfuel => by
    rw [peekLoop]
    simp only
    by_cases htot : total > 0
    case neg =>
      have hge : s.left.toNat ≤ jp * s.blockSize - s.prI := by
        have hln := h.left_nonneg
        rcases hyp with ⟨_, h2⟩ | ⟨_, h2⟩
        · exact h2
        · omega
      refine ⟨[], ?_, ?_⟩
      · rw [if_neg htot, List.append_nil]
      · show ([] : List Nat) = (contents s).drop (jp * s.blockSize - s.prI)
        symm
        apply List.drop_eq_nil_of_le
        rw [contents_length h]
        exact hge
    case pos =>
      rw [if_pos htot]
      have hln := h.left_nonneg
      obtain ⟨hjpg, htote⟩ :
          jp ≤ ringIdxW s ∧ total = s.left - ((jp * s.blockSize - s.prI : Nat) : Int) := by
        rcases hyp with ⟨h1, _⟩ | h2
        · omega
        · exact h2
      have hN := h.nbPos
      have hbs := h.bsPos
      have hprIlt := h.prI_lt
      have hpwile := h.pwI_le
      have hlt := h.left_toNat
      have hprle := h.prI_le
      have hjplt : jp < s.blocks.length := lt_of_le_of_lt hjpg h.ringIdxW_lt
      have hblklen : (ringBytes s ((s.prR + jp) % s.blocks.length)).length = s.blockSize :=
        ringBytes_len h.uniform (Nat.mod_lt _ hN)
      have hsucc : (jp + 1) * s.blockSize = jp * s.blockSize + s.blockSize := Nat.succ_mul _ _
      have hjbs : jp * s.blockSize = s.blockSize * jp := Nat.mul_comm _ _
      have hmono : s.blockSize * jp ≤ s.blockSize * ringIdxW s := Nat.mul_le_mul_left _ hjpg
      have hpp : pwPos s = s.blockSize * ringIdxW s + s.pwI := rfl
      simp only [ringhop_eq_pr h jp hjplt, ringhop_eq_pw h jp hjplt]
      have hringnext : ringNext s ((s.prR + jp) % s.blocks.length)
          = (s.prR + (jp + 1)) % s.blocks.length := by
        show ((s.prR + jp) % s.blocks.length + 1) % s.blocks.length = _
        rw [mod_succ_hop _ _ hN, Nat.add_assoc]
      set st := if jp = 0 then s.prI else 0 with hstd
      clear_value st
      have hstfacts : (jp = 0 ∧ st = s.prI ∧ jp * s.blockSize = 0) ∨
          (1 ≤ jp ∧ st = 0 ∧ s.prI < jp * s.blockSize) := by
        rcases Nat.eq_zero_or_pos jp with hj | hj
        · left
          refine ⟨hj, by rw [hstd, if_pos hj], by rw [hj, Nat.zero_mul]⟩
        · right
          refine ⟨hj, by rw [hstd, if_neg (by omega)], ?_⟩
          have h1 : 1 * s.blockSize ≤ jp * s.blockSize := Nat.mul_le_mul_right _ hj
          rw [Nat.one_mul] at h1
          omega
      have hf1 : jp * s.blockSize + st = s.prI + (jp * s.blockSize - s.prI) := by
        rcases hstfacts with ⟨hj, hstv, hjz⟩ | ⟨hj, hstv, hjz⟩ <;> omega
      by_cases hjg : jp = ringIdxW s
      · rw [if_pos hjg]
        have hgbs : s.blockSize * ringIdxW s = jp * s.blockSize := by
          rw [hjg, Nat.mul_comm]
        have hstle : st ≤ s.pwI := by
          rcases hstfacts with ⟨hj, hstv, hjz⟩ | ⟨hj, hstv, hjz⟩ <;> omega
        have hguard : ¬(s.pwI < st
            ∨ (ringBytes s ((s.prR + jp) % s.blocks.length)).length < s.pwI) := by
          rw [hblklen]
          push_neg
          exact ⟨hstle, hpwile⟩
        rw [if_neg hguard]
        have heq2 : s.left.toNat - (jp * s.blockSize - s.prI) = s.pwI - st := by
          rcases hstfacts with ⟨hj, hstv, hjz⟩ | ⟨hj, hstv, hjz⟩ <;> omega
        have hf2 : s.pwI - st ≤ s.left.toNat - (jp * s.blockSize - s.prI) := by omega
        have hchu := peek_chunk h jp s.pwI st hjplt hf1 hstle hpwile hf2
        have hbuflen : (List.take (s.pwI - st)
            (List.drop st (ringBytes s ((s.prR + jp) % s.blocks.length)))).length
            = s.pwI - st := by
          rw [List.length_take, List.length_drop, hblklen]
          omega
        have hx1 : total - ((s.pwI - st : Nat) : Int) ≤ 0 := by omega
        have hx2 : s.left.toNat ≤ (jp + 1) * s.blockSize - s.prI := by omega
        obtain ⟨spans', hrl, hfl'⟩ := peekLoop_spec h fuel (jp + 1)
          (total - ((s.pwI - st : Nat) : Int))
          (list ++ [List.take (s.pwI - st)
            (List.drop st (ringBytes s ((s.prR + jp) % s.blocks.length)))])
          (Or.inl ⟨hx1, hx2⟩) (by omega) (by omega)
        refine ⟨List.take (s.pwI - st)
          (List.drop st (ringBytes s ((s.prR + jp) % s.blocks.length))) :: spans', ?_, ?_⟩
        · rw [hbuflen, hringnext, hrl, List.append_assoc, List.singleton_append]
        · rw [List.flatten_cons, hfl', hchu]
          have hclen2 : ((contents s).drop (jp * s.blockSize - s.prI)).length
              = s.left.toNat - (jp * s.blockSize - s.prI) := by
            rw [List.length_drop, contents_length h]
          have hn1 : (contents s).length ≤ (jp + 1) * s.blockSize - s.prI := by
            rw [contents_length h]
            exact hx2
          have hn2 : ((contents s).drop (jp * s.blockSize - s.prI)).length ≤ s.pwI - st := by
            rw [hclen2]
            omega
          conv_rhs => rw [← List.take_append_drop (s.pwI - st)
            ((contents s).drop (jp * s.blockSize - s.prI))]
          congr 1
          rw [List.drop_eq_nil_of_le hn1, List.drop_eq_nil_of_le hn2]
      · rw [if_neg hjg]
        have hjltg : jp < ringIdxW s := by omega
        have hmono2 : s.blockSize * (jp + 1) ≤ s.blockSize * ringIdxW s :=
          Nat.mul_le_mul_left _ (by omega)
        rw [Nat.mul_succ] at hmono2
        have hstle : st ≤ s.blockSize := by
          rcases hstfacts with ⟨hj, hstv, hjz⟩ | ⟨hj, hstv, hjz⟩ <;> omega
        have hguard : ¬(s.blockSize < st
            ∨ (ringBytes s ((s.prR + jp) % s.blocks.length)).length < s.blockSize) := by
          rw [hblklen]
          push_neg
          exact ⟨hstle, le_refl _⟩
        rw [if_neg hguard]
        have hf2 : s.blockSize - st ≤ s.left.toNat - (jp * s.blockSize - s.prI) := by
          rcases hstfacts with ⟨hj, hstv, hjz⟩ | ⟨hj, hstv, hjz⟩ <;> omega
        have hchu := peek_chunk h jp s.blockSize st hjplt hf1 hstle (le_refl _) hf2
        have hbuflen : (List.take (s.blockSize - st)
            (List.drop st (ringBytes s ((s.prR + jp) % s.blocks.length)))).length
            = s.blockSize - st := by
          rw [List.length_take, List.length_drop, hblklen]
          omega
        have hcsucc : (jp * s.blockSize - s.prI) + (s.blockSize - st)
            = (jp + 1) * s.blockSize - s.prI := by
          rcases hstfacts with ⟨hj, hstv, hjz⟩ | ⟨hj, hstv, hjz⟩ <;> omega
        have hx2 : total - ((s.blockSize - st : Nat) : Int)
            = s.left - (((jp + 1) * s.blockSize - s.prI : Nat) : Int) := by omega
        obtain ⟨spans', hrl, hfl'⟩ := peekLoop_spec h fuel (jp + 1)
          (total - ((s.blockSize - st : Nat) : Int))
          (list ++ [List.take (s.blockSize - st)
            (List.drop st (ringBytes s ((s.prR + jp) % s.blocks.length)))])
          (Or.inr ⟨by omega, hx2⟩) (by omega) (by omega)
        refine ⟨List.take (s.blockSize - st)
          (List.drop st (ringBytes s ((s.prR + jp) % s.blocks.length))) :: spans', ?_, ?_⟩
        · rw [hbuflen, hringnext, hrl, List.append_assoc, List.singleton_append]
        · rw [List.flatten_cons, hfl', hchu]
          conv_rhs => rw [← List.take_append_drop (s.blockSize - st)
            ((contents s).drop (jp * s.blockSize - s.prI))]
          congr 1
          rw [List.drop_drop, hcsucc]

theorem Peek_spec {s : Buffer} (h : Inv s) :
    ∃ spans, Peek s = some spans ∧ spans.flatten = contents s := by
  by_cases hz : s.left = 0
  · refine ⟨[], ?_, ?_⟩
    · unfold Peek
      rw [if_pos hz]
    · symm
      apply List.eq_nil_of_length_eq_zero
      rw [contents_length h, hz]
      rfl
  · have hgu := h.ringIdxW_lt
    have hNbig : ringIdxW s + 2 - 0 ≤ s.blocks.length * (s.left.toNat + 1) + 2 := by
      have h1 : s.blocks.length * 1 ≤ s.blocks.length * (s.left.toNat + 1) :=
        Nat.mul_le_mul_left _ (by omega)
      rw [Nat.mul_one] at h1
      omega
    obtain ⟨spans, hrl, hfl⟩ := peekLoop_spec h
      (s.blocks.length * (s.left.toNat + 1) + 2) 0 s.left []
      (Or.inr ⟨Nat.zero_le _, by
        rw [Nat.zero_mul, Nat.zero_sub]
        simp⟩) (Nat.le_succ_of_le (Nat.zero_le _)) hNbig
    simp only [Nat.add_zero, List.nil_append] at hrl
    rw [Nat.mod_eq_of_lt h.prR_lt] at hrl
    refine ⟨spans, ?_, ?_⟩
    · unfold Peek
      rw [if_neg hz]
      exact hrl
    · rw [hfl, Nat.zero_mul, Nat.zero_sub, List.drop_zero]

end Bring
